import Mathlib

/-!
LockManager (src/utils/lockmanager.cpp)

A shallow embedding of Fritzing's `LockManager`, the utility that guards the
crash-recovery backup folders with lock files whose modification time is
refreshed by periodic timers.

Modelling conventions

* A path is the list of its components from the file system root; the C++ string
  `dir + "/" + name` is the list `dir ++ [name]`.
* The file system is a tree of `Node`s without symbolic links and without
  permissions.  A name is resolved to the first entry of a directory that carries it;
  in a real directory names are unique.
* Times (`QDateTime`) are integers, in milliseconds.
* `long` is 64 bits wide and `int` 32 bits wide (LP64); values of these types are
  integers, narrowed explicitly where the code narrows them.
* Heap objects of class `LockedFile` live in `World.heap`; a pointer is an index
  into it and `delete` leaves `none` behind.
* `World.calls` records the calls made to `LockedFile::touch` (with the object, its
  file and whether the file could be opened) and to `FolderUtils::rmdir`, oldest first.
-/

namespace Fritzing

/-- A path: its components, from the root of the file system. -/
abbrev Path := List String

/-- A node of the file system: a regular file or a directory with named entries. -/
inductive Node where
  | file (lastModified : Int)
  | dir (lastModified : Int) (entries : List (String × Node))
  deriving Repr

/-- A value of class `QFileInfo` as returned by `QDir::entryInfoList`: the directory
that was listed, the name of the entry, and its modification time. -/
structure QFileInfo where
  dir : Path
  fileName : String
  lastModified : Int
  deriving DecidableEq, Repr

/-- The class `LockedFile`: the name of its `QFile file` and `long frequency`. -/
structure LockedFile where
  file : Path
  frequency : Int
  deriving DecidableEq, Repr

/-- The part of a `QTimer` that `makeLockedFile` sets: `setInterval`,
`setSingleShot`, and whether `start()` has been called. -/
structure QTimer where
  interval : Int
  singleShot : Bool
  active : Bool
  deriving DecidableEq, Repr

/-- A call to a function that acts on the file system. -/
inductive Call where
  | touch (lockedFile : Nat) (file : Path) (opened : Bool)
  | rmdir (dirPath : Path)
  deriving DecidableEq, Repr

/-- The state the code runs in: the file system, the clock, the heap of
`LockedFile` objects, and the statics `TheTimers` and `TheLockedFiles`. -/
structure World where
  root : Node
  now : Int
  heap : List (Option LockedFile)
  TheTimers : List (Int × QTimer)
  TheLockedFiles : List (Int × Nat)
  calls : List Call
  deriving Repr

/-- Narrowing of an integer to a signed machine integer of `bits` bits. -/
def wrapSigned (bits : Nat) (x : Int) : Int :=
  (x + 2 ^ (bits - 1)) % 2 ^ bits - 2 ^ (bits - 1)

/-- Arithmetic result stored in a `long`. -/
def toLong (x : Int) : Int := wrapSigned 64 x

/-- Conversion to `int`, as at the call `timer->setInterval(touchFrequency)`. -/
def toInt (x : Int) : Int := wrapSigned 32 x

/-- The values of type `long`. -/
def inLong (x : Int) : Prop := -(2 ^ 63) ≤ x ∧ x < 2 ^ 63

/-- The values of type `int`. -/
def inInt (x : Int) : Prop := -(2 ^ 31) ≤ x ∧ x < 2 ^ 31

instance (x : Int) : Decidable (inLong x) := by unfold inLong; infer_instance

instance (x : Int) : Decidable (inInt x) := by unfold inInt; infer_instance

namespace QHash

/-- The call `QHash::value(key)`: the value stored under `key`, if any. -/
def value {κ α : Type} [DecidableEq κ] : List (κ × α) → κ → Option α
  | [], _ => none
  | e :: h, key => if e.1 = key then some e.2 else value h key

/-- The call `QHash::remove(key)`. -/
def remove {κ α : Type} [DecidableEq κ] : List (κ × α) → κ → List (κ × α)
  | [], _ => []
  | e :: h, key => if e.1 = key then remove h key else e :: remove h key

/-- The call `QHash::insert(key, v)`: a value already stored under `key` is replaced. -/
def insert {κ α : Type} [DecidableEq κ] (h : List (κ × α)) (key : κ) (v : α) : List (κ × α) :=
  (key, v) :: remove h key

/-- The call `QHash::keys()`. -/
def keys {κ α : Type} (h : List (κ × α)) : List κ := h.map Prod.fst

end QHash

namespace QMultiHash

/-- The call `QMultiHash::insert(key, v)`: adds, never replaces. -/
def insert {κ α : Type} (h : List (κ × α)) (key : κ) (v : α) : List (κ × α) :=
  (key, v) :: h

/-- The call `QMultiHash::remove(key, v)`: removes every item with this key and this value. -/
def remove {κ α : Type} [DecidableEq κ] [DecidableEq α] (h : List (κ × α)) (key : κ) (v : α) :
    List (κ × α) :=
  h.filter (fun e => decide (¬ (e.1 = key ∧ e.2 = v)))

/-- The call `QMultiHash::values(key)`: the values under `key`, most recently inserted first. -/
def values {κ α : Type} [DecidableEq κ] (h : List (κ × α)) (key : κ) : List α :=
  (h.filter (fun e => decide (e.1 = key))).map Prod.snd

end QMultiHash

namespace Node

/-- Modification time of a node. -/
def lastModified : Node → Int
  | file m => m
  | dir m _ => m

/-- Whether the node is a directory. -/
def isDir : Node → Bool
  | file _ => false
  | dir _ _ => true

/-- The entries of a directory; a file has none. -/
def entries : Node → List (String × Node)
  | file _ => []
  | dir _ es => es

/-- The node at a path below this node. -/
def get : Node → Path → Option Node
  | n, [] => some n
  | n, c :: p =>
    match QHash.value n.entries c with
    | some m => get m p
    | none => none

/-- Replace the first entry called `name` by its image under `f`. -/
def updateEntry (name : String) (f : Node → Node) : List (String × Node) → List (String × Node)
  | [] => []
  | e :: es => if e.1 = name then (e.1, f e.2) :: es else e :: updateEntry name f es

/-- Apply `g` to the node at a path, when there is one. -/
def modifyAt (g : Node → Node) : Path → Node → Node
  | [], n => g n
  | _ :: _, file m => file m
  | c :: p, dir m es => dir m (updateEntry c (modifyAt g p) es)

/-- The regular files a directory lists (`QDir::Files | QDir::Hidden | QDir::NoSymLinks`
with no name filter). -/
def files (n : Node) : List (String × Node) := n.entries.filter (fun e => !e.2.isDir)

/-- The directories a directory lists
(`QDir::AllDirs | QDir::NoDotAndDotDot | QDir::Hidden | QDir::NoSymLinks`). -/
def dirs (n : Node) : List (String × Node) := n.entries.filter (fun e => e.2.isDir)

/-- What `QFile::open(WriteOnly)`, `write`, `close` on the entry `name` do to its
directory at time `now`: an existing file gets a new modification time, a missing one is
created (which also modifies the directory), and a directory of that name cannot be opened. -/
def touchEntry (name : String) (now : Int) : Node → Node
  | file m => file m
  | dir m es =>
    match QHash.value es name with
    | some (file _) => dir m (updateEntry name (fun _ => file now) es)
    | some (dir _ _) => dir m es
    | none => dir now (es ++ [(name, file now)])

/-- What `QDir::mkdir(name)` does to the directory it is called on. -/
def mkdirEntry (name : String) (now : Int) : Node → Node
  | file m => file m
  | dir m es =>
    match QHash.value es name with
    | some _ => dir m es
    | none => dir now (es ++ [(name, dir now [])])

/-- What removing the directory `name`, with all it contains, does to its parent. -/
def rmEntry (name : String) (now : Int) : Node → Node
  | file m => file m
  | dir m es =>
    match QHash.value es name with
    | some (dir _ _) => dir now (QHash.remove es name)
    | _ => dir m es

end Node

namespace QFileInfo

/-- The call `QFileInfo::filePath()`. -/
def filePath (i : QFileInfo) : Path := i.dir ++ [i.fileName]

end QFileInfo

namespace QDir

/-- The call `QDir::exists()`: the path names a directory. -/
def «exists» (root : Node) (d : Path) : Bool :=
  match root.get d with
  | some (Node.dir _ _) => true
  | _ => false

/-- The call `QDir::cd(dirName)`: the new path of the `QDir` and the returned flag. An empty
`dirName` succeeds at once; otherwise the directory must exist, and on failure the
`QDir` stays where it was. -/
def cd (root : Node) (d : Path) (dirName : Path) : Path × Bool :=
  if dirName = [] then (d, true)
  else if «exists» root (d ++ dirName) then (d ++ dirName, true)
  else (d, false)

/-- The call `QDir::cdUp()`: fails at the root and when the parent directory does not exist. -/
def cdUp (root : Node) (d : Path) : Path × Bool :=
  if d = [] then (d, false)
  else if «exists» root d.dropLast then (d.dropLast, true)
  else (d, false)

/-- The call `QDir::absoluteFilePath(fileName)`. -/
def absoluteFilePath (d : Path) (fileName : String) : Path := d ++ [fileName]

/-- The call `QDir::entryInfoList`, for the two filters the code uses: the directories
(`wantDirs = true`) or the regular files (`wantDirs = false`) of the directory `d`,
in listing order. A path that is no directory lists nothing. -/
def entryInfoList (root : Node) (d : Path) (wantDirs : Bool) : List QFileInfo :=
  match root.get d with
  | some n => ((if wantDirs then n.dirs else n.files).map
      (fun e => QFileInfo.mk d e.1 e.2.lastModified))
  | none => []

/-- The call `QDir::mkdir(dirName)`: the new file system and the returned flag. -/
def mkdir (root : Node) (now : Int) (d : Path) (dirName : String) : Node × Bool :=
  match root.get d with
  | some (Node.dir _ es) =>
    (match QHash.value es dirName with
     | some _ => (root, false)
     | none => (Node.modifyAt (Node.mkdirEntry dirName now) d root, true))
  | _ => (root, false)

end QDir

namespace QFile

/-- Whether `QFile::open(QFile::WriteOnly)` succeeds on `file`: its directory exists and
no directory stands under its name. -/
def canOpen (root : Node) (file : Path) : Bool :=
  match file.getLast? with
  | none => false
  | some name =>
    match root.get file.dropLast with
    | some (Node.dir _ es) =>
      (match QHash.value es name with
       | some (Node.dir _ _) => false
       | _ => true)
    | _ => false

/-- The file system after `open(WriteOnly)`, `write("a")`, `close()` on `file`. -/
def rewrite (root : Node) (now : Int) (file : Path) : Node :=
  match file.getLast? with
  | none => root
  | some name => Node.modifyAt (Node.touchEntry name now) file.dropLast root

end QFile

namespace FolderUtils

/-- Modelled from the spec: `FolderUtils::rmdir` (src/utils/folderutils.cpp) is not among
the sources; the backup folder it is given is removed with all it contains. A path that names
no directory is left alone. -/
def rmdir (w : World) (dirPath : Path) : World :=
  { w with
    root := (match dirPath.getLast? with
      | none => w.root
      | some name => Node.modifyAt (Node.rmEntry name w.now) dirPath.dropLast w.root)
    calls := w.calls ++ [Call.rmdir dirPath] }

end FolderUtils

namespace LockedFile

/-- The method `LockedFile::touch()` on the object at address `self`: rewrites the file and
reports whether it could be opened. -/
def touch (w : World) (self : Nat) : World × Bool :=
  match w.heap[self]? with
  | some (some lockedFile) =>
    ({ w with
       root := QFile.rewrite w.root w.now lockedFile.file
       calls := w.calls ++
         [Call.touch self lockedFile.file (QFile.canOpen w.root lockedFile.file)] },
     QFile.canOpen w.root lockedFile.file)
  | _ => (w, false)

end LockedFile

namespace LockManager

/-- The constant `LockManager::LockedFileName`. -/
def LockedFileName : String := "___lockfile___.txt"

/-- The constant `LockManager::FastTime`. -/
def FastTime : Int := 2000

/-- The constant `LockManager::SlowTime`. -/
def SlowTime : Int := 240000

/-- The slot `LockManager::touchFiles()`; `sender` is the timer that fired, or `none` when
`qobject_cast<QTimer *>(sender())` is null. -/
def touchFiles (w : World) (sender : Option QTimer) : World :=
  match sender with
  | none => w
  | some timer =>
    (QMultiHash.values w.TheLockedFiles timer.interval).foldl
      (fun w lockedFile => (LockedFile.touch w lockedFile).1) w

/-- The function `LockManager::makeLockedFile(path, touchFrequency)`: the new world and the
address of the new `LockedFile`. -/
def makeLockedFile (w : World) (path : Path) (touchFrequency : Int) : World × Nat :=
  let lockedFile := w.heap.length
  let w1 := { w with heap := w.heap ++ [some (LockedFile.mk path touchFrequency)] }
  let w2 := (LockedFile.touch w1 lockedFile).1
  let w3 := { w2 with
    TheLockedFiles := QMultiHash.insert w2.TheLockedFiles touchFrequency lockedFile }
  match QHash.value w3.TheTimers touchFrequency with
  | some _ => (w3, lockedFile)
  | none =>
    ({ w3 with
       TheTimers := QHash.insert w3.TheTimers touchFrequency
         (QTimer.mk (toInt touchFrequency) false true) },
     lockedFile)

/-- The function `LockManager::initLockedFiles`. `store` is the value of
`FolderUtils::getTopLevelUserDataStorePath()` and `randText` that of
`TextUtils::getRandText()`. Returns the world, `folder` and `lockedFiles`. -/
def initLockedFiles (store : Path) (randText : String) (w : World) (pfx : Path)
    (lockedFiles : List (String × Nat)) (touchFrequency : Int) :
    World × Path × List (String × Nat) :=
  let backupDir := (QDir.cd w.root store pfx).1
  let lockedSubfolder := randText
  let w1 := { w with root := (QDir.mkdir w.root w.now backupDir lockedSubfolder).1 }
  let folder := QDir.absoluteFilePath backupDir lockedSubfolder
  if touchFrequency > 0 then
    let r := makeLockedFile w1 (folder ++ [LockedFileName]) touchFrequency
    (r.1, folder, QHash.insert lockedFiles lockedSubfolder r.2)
  else
    (w1, folder, lockedFiles)

/-- One round of the loop of `releaseLockedFiles`, for the key `sub`. Reading `frequency`
through a pointer that was deleted before is undefined; the model then leaves the registry
alone. -/
def releaseLockedFilesStep (backupDir : Path) (lockedFiles : List (String × Nat))
    (remove : Bool) (w : World) (sub : String) : World :=
  match QHash.value lockedFiles sub with
  | none => w
  | some lockedFile =>
    let w1 :=
      match w.heap[lockedFile]? with
      | some (some obj) =>
        { w with TheLockedFiles := QMultiHash.remove w.TheLockedFiles obj.frequency lockedFile }
      | _ => w
    let w2 := if remove then FolderUtils.rmdir w1 (QDir.absoluteFilePath backupDir sub) else w1
    { w2 with heap := w2.heap.set lockedFile none }

/-- The function `LockManager::releaseLockedFiles(folder, lockedFiles, remove)`: the new
world and `lockedFiles`. -/
def releaseLockedFiles (w : World) (folder : Path) (lockedFiles : List (String × Nat))
    (remove : Bool) : World × List (String × Nat) :=
  let backupDir := QDir.cdUp w.root folder
  if !backupDir.2 then (w, lockedFiles)
  else
    ((QHash.keys lockedFiles).foldl (releaseLockedFilesStep backupDir.1 lockedFiles remove) w,
     [])

/-- A sequence of calls of `makeLockedFile`, one for each `(path, touchFrequency)`. -/
def makeLockedFiles (w : World) (requests : List (Path × Int)) : World :=
  requests.foldl (fun w r => (makeLockedFile w r.1 r.2).1) w

/-- The overload `LockManager::releaseLockedFiles(folder, lockedFiles)`. -/
def releaseLockedFiles2 (w : World) (folder : Path) (lockedFiles : List (String × Nat)) :
    World × List (String × Nat) :=
  releaseLockedFiles w folder lockedFiles true

mutual
/-- The function `LockManager::checkLockedFilesAux(parent, filters)`, on the directory
node that `parent` names. -/
def checkLockedFilesAux : Node → Bool
  | Node.file _ => false
  | Node.dir _ es => checkLockedFilesAuxLoop es
/-- The loop of `checkLockedFilesAux` over the entries of `parent`; only directories are
in `dirList`. -/
def checkLockedFilesAuxLoop : List (String × Node) → Bool
  | [] => false
  | (_, Node.file _) :: rest => checkLockedFilesAuxLoop rest
  | (_, Node.dir m es) :: rest =>
    if !(Node.dir m es).files.isEmpty then true
    else if checkLockedFilesAux (Node.dir m es) then true
    else checkLockedFilesAuxLoop rest
end

/-- The in-out parameters of `checkLockedFiles`, with the world. -/
structure CheckState where
  w : World
  backupList : List QFileInfo
  lockedFiles : List (String × Nat)
  deriving Repr

/-- The date `QDateTime::currentDateTime().addMSecs(-2000 - touchFrequency)`; the
difference is computed in `long`. -/
def staleBefore (now : Int) (touchFrequency : Int) : Int :=
  now + toLong (-2000 - touchFrequency)

/-- One round of the loop of `checkLockedFiles`, for the subfolder `dirInfo`. -/
def checkLockedFilesStep (recurse : Bool) (touchFrequency : Int) (s : CheckState)
    (dirInfo : QFileInfo) : CheckState :=
  let dir := dirInfo.filePath
  let fileInfoList := QDir.entryInfoList s.w.root dir false
  let gotRecurse :=
    if recurse && fileInfoList.isEmpty then
      (match s.w.root.get dir with
       | some parent => checkLockedFilesAux parent
       | none => false)
    else false
  if fileInfoList.isEmpty && !gotRecurse then
    if dirInfo.lastModified < staleBefore s.w.now touchFrequency then
      { s with w := FolderUtils.rmdir s.w dirInfo.filePath }
    else s
  else
    let lockInfo := QDir.absoluteFilePath dir LockedFileName
    let somebodyElseOwns :=
      (match s.w.root.get lockInfo with
       | some lock => decide (lock.lastModified ≥ staleBefore s.w.now touchFrequency)
       | none => false)
    if somebodyElseOwns then s
    else
      let r := makeLockedFile s.w (QDir.absoluteFilePath dir LockedFileName) touchFrequency
      { w := r.1
        lockedFiles := QHash.insert s.lockedFiles dirInfo.fileName r.2
        backupList := s.backupList ++ fileInfoList }

/-- The function `LockManager::checkLockedFiles`. `store` is the value of
`FolderUtils::getTopLevelUserDataStorePath()`. -/
def checkLockedFiles (store : Path) (w : World) (pfx : Path) (backupList : List QFileInfo)
    (lockedFiles : List (String × Nat)) (recurse : Bool) (touchFrequency : Int) : CheckState :=
  let backupDir := QDir.cd w.root store pfx
  if !backupDir.2 then CheckState.mk w backupList lockedFiles
  else
    (QDir.entryInfoList w.root backupDir.1 true).foldl
      (checkLockedFilesStep recurse touchFrequency) (CheckState.mk w backupList lockedFiles)

/-- The relation between a state `s` of the loop of `checkLockedFiles` over the directory
`backupDir` and a later state `s2` when nothing in between concerned the subfolder `name`:
the subfolder is as it was, `lockedFiles` has the same value for it, the additions to
`backupList` are not files of it, the new `LockedFile` objects and registry items are not for
its lock file, and neither its lock file was touched nor the subfolder removed. -/
structure Untouched (backupDir : Path) (name : String) (s s2 : CheckState) : Prop where
  root : s2.w.root.get (backupDir ++ [name]) = s.w.root.get (backupDir ++ [name])
  now : s2.w.now = s.w.now
  lockedFiles : QHash.value s2.lockedFiles name = QHash.value s.lockedFiles name
  backupList : ∃ added, s2.backupList = s.backupList ++ added ∧
    ∀ i ∈ added, i.dir ≠ backupDir ++ [name]
  heap : ∃ objs, s2.w.heap = s.w.heap ++ objs ∧
    ∀ obj, some obj ∈ objs → obj.file ≠ backupDir ++ [name] ++ [LockedFileName]
  registry : ∃ regs, s2.w.TheLockedFiles = regs ++ s.w.TheLockedFiles ∧
    ∀ e ∈ regs, s.w.heap.length ≤ e.2
  calls : ∃ cs, s2.w.calls = s.w.calls ++ cs ∧
    ∀ c ∈ cs, c ≠ Call.rmdir (backupDir ++ [name]) ∧
      ∀ p opened, c ≠ Call.touch p (backupDir ++ [name] ++ [LockedFileName]) opened

/-- The relation between a state `s` of the loop of `checkLockedFiles` over the directory
`backupDir` and a later state `s2` when the subfolder `name` was not claimed in between:
`lockedFiles` has the same value for it, the additions to `backupList` are not files of it,
no new `LockedFile` object is for its lock file, the new registry items point to new objects,
and its lock file was not touched. -/
structure NotClaimed (backupDir : Path) (name : String) (s s2 : CheckState) : Prop where
  lockedFiles : QHash.value s2.lockedFiles name = QHash.value s.lockedFiles name
  backupList : ∃ added, s2.backupList = s.backupList ++ added ∧
    ∀ i ∈ added, i.dir ≠ backupDir ++ [name]
  heap : ∃ objs, s2.w.heap = s.w.heap ++ objs ∧
    ∀ obj, some obj ∈ objs → obj.file ≠ backupDir ++ [name] ++ [LockedFileName]
  registry : ∃ regs, s2.w.TheLockedFiles = regs ++ s.w.TheLockedFiles ∧
    ∀ e ∈ regs, s.w.heap.length ≤ e.2
  calls : ∃ cs, s2.w.calls = s.w.calls ++ cs ∧
    ∀ c ∈ cs, ∀ p opened, c ≠ Call.touch p (backupDir ++ [name] ++ [LockedFileName]) opened

end LockManager

/-! ## Example states -/

/-- A file system with the backup directory `store/backup` and, in it, a subfolder with a
recent lock, an abandoned subfolder, an old empty subfolder and a young empty one. -/
def exampleRoot : Node :=
  Node.dir 0 [("store", Node.dir 0 [("backup", Node.dir 0 [
    ("held", Node.dir 50 [("a.fzz", Node.file 40), ("___lockfile___.txt", Node.file 9000)]),
    ("crashed", Node.dir 60 [("b.fzz", Node.file 41), ("c.fzz", Node.file 42),
      ("___lockfile___.txt", Node.file 100)]),
    ("oldEmpty", Node.dir 70 []),
    ("newEmpty", Node.dir 9500 [])])])]

/-- A state at time 10000 with nothing locked yet. -/
def exampleWorld : World :=
  World.mk exampleRoot 10000 [] [] [] []

/-- The example state after `initLockedFiles` made and locked the folder `Qx7`: the world,
`folder` and `lockedFiles`. -/
def exampleHeld : World × Path × List (String × Nat) :=
  LockManager.initLockedFiles ["store"] "Qx7" exampleWorld ["backup"] [] LockManager.FastTime

/-- The example state 3000 ms after a call of `checkLockedFiles` on it with the frequency
`FastTime`, with nothing else changed. -/
def exampleLater : World :=
  { (LockManager.checkLockedFiles ["store"] exampleWorld ["backup"] [] [] false
      LockManager.FastTime).w with now := 13000 }

mutual
/-- Whether the names are distinct in this directory and in every directory below it, as
they are in a directory tree. -/
def Node.uniqueNames : Node → Bool
  | Node.file _ => true
  | Node.dir _ es => decide (QHash.keys es).Nodup && Node.uniqueNamesIn es
/-- The part of `Node.uniqueNames` about the entries of a directory. -/
def Node.uniqueNamesIn : List (String × Node) → Bool
  | [] => true
  | (_, n) :: rest => n.uniqueNames && Node.uniqueNamesIn rest
end

/-- A directory with a file of its own, a subdirectory whose only file lies two levels
down, and an empty subdirectory. -/
def exampleTree : Node :=
  Node.dir 5 [("notes.txt", Node.file 6),
    ("sketches", Node.dir 7 [("v1", Node.dir 8 [("a.fzz", Node.file 9)])]),
    ("empty", Node.dir 10 [])]

/-- A state at time 10000 whose backup directory has the old subfolder `deep`, with no
file of its own and one file in a nested directory, and the old subfolder `odd`, whose only
entry is a recently modified directory that carries the name of the lock file and holds a
file. -/
def exampleNestedWorld : World :=
  World.mk
    (Node.dir 0 [("store", Node.dir 0 [("backup", Node.dir 0 [
      ("deep", Node.dir 70 [("inner", Node.dir 71 [("d.fzz", Node.file 72)])]),
      ("odd", Node.dir 73 [("___lockfile___.txt", Node.dir 9000 [("e.fzz", Node.file 74)])])
      ])])])
    10000 [] [] [] []

/-- A state at time 10000 whose backup directory has two subfolders with a file each, in
which a directory carries the name of the lock file: in `staleDir` that directory was last
modified 9900 ms ago, in `freshDir` 1000 ms ago. -/
def exampleDirLockWorld : World :=
  World.mk
    (Node.dir 0 [("store", Node.dir 0 [("backup", Node.dir 0 [
      ("staleDir", Node.dir 60 [("a.fzz", Node.file 41),
        ("___lockfile___.txt", Node.dir 100 [])]),
      ("freshDir", Node.dir 61 [("b.fzz", Node.file 42),
        ("___lockfile___.txt", Node.dir 9000 [])])
      ])])])
    10000 [] [] [] []

end Fritzing

namespace Fritzing

/-! ## Hash tables -/

theorem QHash.value_mem {κ α : Type} [DecidableEq κ] (h : List (κ × α)) (k : κ) (v : α)
    (hv : QHash.value h k = some v) : (k, v) ∈ h := by
  induction h with
  | nil => simp [QHash.value] at hv
  | cons e h ih =>
    unfold QHash.value at hv
    by_cases hk : e.1 = k
    · rw [if_pos hk] at hv
      have : e = (k, v) := by
        cases e; simp only [Option.some.injEq] at hv; simp_all
      simp [this]
    · rw [if_neg hk] at hv
      exact List.mem_cons_of_mem _ (ih hv)

theorem QHash.value_eq_none {κ α : Type} [DecidableEq κ] (h : List (κ × α)) (k : κ) :
    QHash.value h k = none ↔ k ∉ QHash.keys h := by
  induction h with
  | nil => simp [QHash.value, QHash.keys]
  | cons e h ih =>
    unfold QHash.value
    by_cases hk : e.1 = k
    · simp [hk, QHash.keys]
    · rw [if_neg hk, ih]
      simp only [QHash.keys, List.map_cons, List.mem_cons, not_or]
      constructor
      · intro h2; exact ⟨fun h3 => hk h3.symm, h2⟩
      · intro h2; exact h2.2

theorem QHash.value_append {κ α : Type} [DecidableEq κ] (h1 h2 : List (κ × α)) (k : κ) :
    QHash.value (h1 ++ h2) k =
      (match QHash.value h1 k with
       | some v => some v
       | none => QHash.value h2 k) := by
  induction h1 with
  | nil => simp [QHash.value]
  | cons e h ih =>
    simp only [List.cons_append, QHash.value]
    by_cases hk : e.1 = k
    · simp [hk]
    · simp [hk, ih]

theorem QHash.value_remove_self {κ α : Type} [DecidableEq κ] (h : List (κ × α)) (k : κ) :
    QHash.value (QHash.remove h k) k = none := by
  induction h with
  | nil => simp [QHash.value, QHash.remove]
  | cons e h ih =>
    by_cases hk : e.1 = k
    · simp [QHash.remove, hk, ih]
    · simp [QHash.remove, QHash.value, hk, ih]

theorem QHash.value_remove_ne {κ α : Type} [DecidableEq κ] (h : List (κ × α)) (k k2 : κ)
    (hne : k2 ≠ k) : QHash.value (QHash.remove h k) k2 = QHash.value h k2 := by
  induction h with
  | nil => simp [QHash.value, QHash.remove]
  | cons e h ih =>
    by_cases hk : e.1 = k
    · have h2 : e.1 ≠ k2 := by rw [hk]; exact fun h => hne h.symm
      simp only [QHash.remove, if_pos hk, QHash.value, if_neg h2, ih]
    · by_cases hk2 : e.1 = k2
      · simp only [QHash.remove, if_neg hk, QHash.value, if_pos hk2]
      · simp only [QHash.remove, if_neg hk, QHash.value, if_neg hk2, ih]

theorem QHash.value_insert_self {κ α : Type} [DecidableEq κ] (h : List (κ × α)) (k : κ) (v : α) :
    QHash.value (QHash.insert h k v) k = some v := by
  simp [QHash.insert, QHash.value]

theorem QHash.value_insert_ne {κ α : Type} [DecidableEq κ] (h : List (κ × α)) (k k2 : κ) (v : α)
    (hne : k2 ≠ k) : QHash.value (QHash.insert h k v) k2 = QHash.value h k2 := by
  have h2 : k ≠ k2 := fun h => hne h.symm
  simp only [QHash.insert, QHash.value, if_neg h2, QHash.value_remove_ne h k k2 hne]

/-! ## The file system -/

theorem Node.value_updateEntry_self (name : String) (f : Node → Node) (es : List (String × Node)) :
    QHash.value (Node.updateEntry name f es) name = (QHash.value es name).map f := by
  induction es with
  | nil => simp [Node.updateEntry, QHash.value]
  | cons e es ih =>
    by_cases hk : e.1 = name
    · simp [Node.updateEntry, QHash.value, hk]
    · simp [Node.updateEntry, QHash.value, hk, ih]

theorem Node.value_updateEntry_ne (name k : String) (f : Node → Node) (es : List (String × Node))
    (hne : k ≠ name) : QHash.value (Node.updateEntry name f es) k = QHash.value es k := by
  induction es with
  | nil => simp [Node.updateEntry, QHash.value]
  | cons e es ih =>
    by_cases hk : e.1 = name
    · have h2 : e.1 ≠ k := by rw [hk]; exact fun h => hne h.symm
      simp [Node.updateEntry, QHash.value, hk, h2, hne.symm]
    · by_cases hk2 : e.1 = k
      · simp only [Node.updateEntry, if_neg hk, QHash.value, if_pos hk2]
      · simp only [Node.updateEntry, if_neg hk, QHash.value, if_neg hk2, ih]

theorem Node.get_nil (n : Node) : n.get [] = some n := by
  cases n <;> rfl

theorem Node.get_cons (n : Node) (c : String) (p : Path) :
    n.get (c :: p) = (QHash.value n.entries c).bind (fun m => m.get p) := by
  cases h : QHash.value n.entries c <;> simp [Node.get, h]

theorem Node.get_append (n : Node) (p q : Path) :
    n.get (p ++ q) = (n.get p).bind (fun m => m.get q) := by
  induction p generalizing n with
  | nil => simp [Node.get_nil]
  | cons c p ih =>
    simp only [List.cons_append, Node.get_cons]
    cases h : QHash.value n.entries c with
    | none => simp
    | some m => simp [ih]

theorem Node.modifyAt_append (g : Node → Node) (p q : Path) (n : Node) :
    Node.modifyAt g (p ++ q) n = Node.modifyAt (Node.modifyAt g q) p n := by
  induction p generalizing n with
  | nil => simp [Node.modifyAt]
  | cons c p ih =>
    cases n with
    | file m => simp [Node.modifyAt]
    | dir m es =>
      have : Node.modifyAt g (p ++ q) = Node.modifyAt (Node.modifyAt g q) p := by
        funext x; exact ih x
      show Node.dir m (Node.updateEntry c (Node.modifyAt g (p ++ q)) es) = _
      rw [this]
      rfl

theorem Node.get_modifyAt (g : Node → Node) (p q : Path) (n : Node) :
    (Node.modifyAt g p n).get (p ++ q) = (n.get p).bind (fun m => (g m).get q) := by
  induction p generalizing n with
  | nil => simp [Node.modifyAt, Node.get_nil]
  | cons c p ih =>
    cases n with
    | file m => simp [Node.modifyAt, Node.get_cons, Node.entries, QHash.value]
    | dir m es =>
      simp only [List.cons_append, Node.modifyAt, Node.get_cons, Node.entries,
        Node.value_updateEntry_self]
      cases h : QHash.value es c with
      | none => simp
      | some x => simp [ih]

theorem Node.get_modifyAt_cons_ne (g : Node → Node) (c c2 : String) (p q : Path) (n : Node)
    (hne : c2 ≠ c) : (Node.modifyAt g (c :: p) n).get (c2 :: q) = n.get (c2 :: q) := by
  cases n with
  | file m => simp [Node.modifyAt]
  | dir m es =>
    simp [Node.modifyAt, Node.get_cons, Node.entries, Node.value_updateEntry_ne _ _ _ _ hne]

/-- A change below the entry `c` of the directory `p` is not seen below another entry. -/
theorem Node.get_modifyAt_other (g : Node → Node) (p r q : Path) (c c2 : String) (n : Node)
    (hne : c2 ≠ c) :
    (Node.modifyAt g (p ++ c :: r) n).get (p ++ c2 :: q) = n.get (p ++ c2 :: q) := by
  rw [Node.modifyAt_append, Node.get_modifyAt, Node.get_append]
  cases h : n.get p with
  | none => simp
  | some m => simp [Node.get_modifyAt_cons_ne g c c2 r q m hne]

theorem Node.get_rmEntry_ne (name c : String) (now : Int) (q : Path) (n : Node) (hne : c ≠ name) :
    (Node.rmEntry name now n).get (c :: q) = n.get (c :: q) := by
  cases n with
  | file m => simp [Node.rmEntry]
  | dir m es =>
    simp only [Node.rmEntry]
    split <;> simp [Node.get_cons, Node.entries, QHash.value_remove_ne _ _ _ hne]

theorem Node.get_rmEntry_self (name : String) (now : Int) (n : Node) :
    ∀ m es, (Node.rmEntry name now n).get [name] ≠ some (Node.dir m es) := by
  intro m0 es0
  cases n with
  | file m => simp [Node.rmEntry, Node.get_cons, Node.entries, QHash.value]
  | dir m es =>
    simp only [Node.rmEntry]
    split
    · simp [Node.get_cons, Node.entries, QHash.value_remove_self]
    · rename_i h
      simp only [Node.get_cons, Node.entries]
      cases h2 : QHash.value es name with
      | none => simp
      | some x =>
        cases x with
        | file _ => simp [Node.get_nil]
        | dir a b => exact absurd h2 (h a b)

end Fritzing

namespace Fritzing

/-! ## Machine integers -/

theorem toInt_of_inInt (x : Int) (h : inInt x) : toInt x = x := by
  unfold inInt at h
  unfold toInt wrapSigned
  norm_num at h ⊢
  omega

theorem toLong_of_inLong (x : Int) (h : inLong x) : toLong x = x := by
  unfold inLong at h
  unfold toLong wrapSigned
  norm_num at h ⊢
  omega

theorem LockManager.staleBefore_eq (now tf : Int) (h : inLong (-2000 - tf)) :
    LockManager.staleBefore now tf = now - (2000 + tf) := by
  unfold LockManager.staleBefore
  rw [toLong_of_inLong _ h]
  ring

/-! ## `makeLockedFile` -/

theorem LockManager.makeLockedFile_snd (w : World) (path : Path) (tf : Int) :
    (LockManager.makeLockedFile w path tf).2 = w.heap.length := by
  unfold LockManager.makeLockedFile
  simp only
  split <;> rfl

theorem LockManager.makeLockedFile_heap (w : World) (path : Path) (tf : Int) :
    (LockManager.makeLockedFile w path tf).1.heap = w.heap ++ [some (LockedFile.mk path tf)] := by
  unfold LockManager.makeLockedFile LockedFile.touch
  simp only [List.getElem?_concat_length]
  split <;> rfl

theorem LockManager.makeLockedFile_root (w : World) (path : Path) (tf : Int) :
    (LockManager.makeLockedFile w path tf).1.root = QFile.rewrite w.root w.now path := by
  unfold LockManager.makeLockedFile LockedFile.touch
  simp only [List.getElem?_concat_length]
  split <;> rfl

theorem LockManager.makeLockedFile_now (w : World) (path : Path) (tf : Int) :
    (LockManager.makeLockedFile w path tf).1.now = w.now := by
  unfold LockManager.makeLockedFile LockedFile.touch
  simp only [List.getElem?_concat_length]
  split <;> rfl

theorem LockManager.makeLockedFile_calls (w : World) (path : Path) (tf : Int) :
    (LockManager.makeLockedFile w path tf).1.calls =
      w.calls ++ [Call.touch w.heap.length path (QFile.canOpen w.root path)] := by
  unfold LockManager.makeLockedFile LockedFile.touch
  simp only [List.getElem?_concat_length]
  split <;> rfl

theorem LockManager.makeLockedFile_registry (w : World) (path : Path) (tf : Int) :
    (LockManager.makeLockedFile w path tf).1.TheLockedFiles =
      (tf, w.heap.length) :: w.TheLockedFiles := by
  unfold LockManager.makeLockedFile LockedFile.touch
  simp only [List.getElem?_concat_length]
  split <;> rfl

theorem LockManager.makeLockedFile_timers (w : World) (path : Path) (tf : Int) :
    (LockManager.makeLockedFile w path tf).1.TheTimers =
      (match QHash.value w.TheTimers tf with
       | some _ => w.TheTimers
       | none => QHash.insert w.TheTimers tf (QTimer.mk (toInt tf) false true)) := by
  unfold LockManager.makeLockedFile LockedFile.touch
  simp only [List.getElem?_concat_length]
  cases h : QHash.value w.TheTimers tf <;> simp

end Fritzing

namespace Fritzing

/-! ## Releasing when the parent directory is missing -/

/-- C10. When the parent directory of `folder` cannot be entered (`cdUp` fails),
`releaseLockedFiles(folder, lockedFiles, remove)` returns with `lockedFiles` as it was, the
registry of locked files as it was, every `LockedFile` object still alive, no directory removed
(the file system is the same and no call of `rmdir` was made); so a timer that fires afterwards
touches the same lock files as it would have before. -/
theorem LockManager.releaseLockedFiles_cdUp_fails (w : World) (folder : Path)
    (lockedFiles : List (String × Nat)) (remove : Bool)
    (hfail : (QDir.cdUp w.root folder).2 = false) :
    (LockManager.releaseLockedFiles w folder lockedFiles remove).2 = lockedFiles ∧
    (LockManager.releaseLockedFiles w folder lockedFiles remove).1.TheLockedFiles =
      w.TheLockedFiles ∧
    (LockManager.releaseLockedFiles w folder lockedFiles remove).1.heap = w.heap ∧
    (LockManager.releaseLockedFiles w folder lockedFiles remove).1.root = w.root ∧
    (LockManager.releaseLockedFiles w folder lockedFiles remove).1.calls = w.calls ∧
    (LockManager.releaseLockedFiles w folder lockedFiles remove).1.TheTimers = w.TheTimers ∧
    ∀ sender, LockManager.touchFiles
        (LockManager.releaseLockedFiles w folder lockedFiles remove).1 sender =
      LockManager.touchFiles w sender := by
  have h : LockManager.releaseLockedFiles w folder lockedFiles remove = (w, lockedFiles) := by
    unfold LockManager.releaseLockedFiles
    simp [hfail]
  rw [h]
  simp

/-- C10, at a folder whose parent directory does not exist. -/
theorem LockManager.releaseLockedFiles_cdUp_fails_witness :
    (LockManager.releaseLockedFiles exampleWorld ["gone", "sub"] [("sub", 0)] true).2 =
      [("sub", 0)] ∧
    (LockManager.releaseLockedFiles exampleWorld ["gone", "sub"] [("sub", 0)] true).1.root =
      exampleWorld.root :=
  have h := LockManager.releaseLockedFiles_cdUp_fails exampleWorld ["gone", "sub"]
    [("sub", 0)] true (by decide)
  ⟨h.1, h.2.2.2.1⟩

/-! ## The periodic touch -/

end Fritzing

namespace Fritzing

/-! ## One timer for each frequency -/

theorem QHash.remove_of_not_mem {κ α : Type} [DecidableEq κ] (h : List (κ × α)) (k : κ)
    (hk : k ∉ QHash.keys h) : QHash.remove h k = h := by
  induction h with
  | nil => rfl
  | cons e h ih =>
    simp only [QHash.keys, List.map_cons, List.mem_cons, not_or] at hk
    have h1 : e.1 ≠ k := fun h => hk.1 h.symm
    simp only [QHash.remove, if_neg h1]
    rw [ih hk.2]

theorem QHash.value_isSome_of_mem_keys {κ α : Type} [DecidableEq κ] (h : List (κ × α)) (k : κ)
    (hk : k ∈ QHash.keys h) : ∃ v, QHash.value h k = some v := by
  cases hv : QHash.value h k with
  | some v => exact ⟨v, rfl⟩
  | none => exact absurd hk ((QHash.value_eq_none h k).mp hv)

/-- One call of `makeLockedFile` keeps the timer table well formed and adds the key
`touchFrequency` when it is new. -/
theorem LockManager.makeLockedFile_timers_ok (w : World) (path : Path) (tf : Int)
    (hnodup : (QHash.keys w.TheTimers).Nodup)
    (hshape : ∀ f t, (f, t) ∈ w.TheTimers → t = QTimer.mk (toInt f) false true) :
    (QHash.keys (LockManager.makeLockedFile w path tf).1.TheTimers).Nodup ∧
    (∀ f t, (f, t) ∈ (LockManager.makeLockedFile w path tf).1.TheTimers →
      t = QTimer.mk (toInt f) false true) ∧
    (∀ f, f ∈ QHash.keys (LockManager.makeLockedFile w path tf).1.TheTimers ↔
      f ∈ QHash.keys w.TheTimers ∨ f = tf) := by
  rw [LockManager.makeLockedFile_timers]
  cases hv : QHash.value w.TheTimers tf with
  | some t =>
    have hmem : tf ∈ QHash.keys w.TheTimers := by
      by_contra hc
      rw [(QHash.value_eq_none _ _).mpr hc] at hv
      cases hv
    refine ⟨hnodup, hshape, ?_⟩
    intro f
    constructor
    · intro h; exact Or.inl h
    · rintro (h | h)
      · exact h
      · rw [h]; exact hmem
  | none =>
    have hnot : tf ∉ QHash.keys w.TheTimers := (QHash.value_eq_none _ _).mp hv
    simp only [QHash.insert, QHash.remove_of_not_mem _ _ hnot]
    refine ⟨?_, ?_, ?_⟩
    · simp only [QHash.keys, List.map_cons, List.nodup_cons]
      exact ⟨hnot, hnodup⟩
    · intro f t hft
      rcases List.mem_cons.mp hft with h | h
      · cases h; rfl
      · exact hshape f t h
    · intro f
      simp only [QHash.keys, List.map_cons, List.mem_cons]
      constructor
      · rintro (h | h)
        · exact Or.inr h
        · exact Or.inl h
      · rintro (h | h)
        · exact Or.inr h
        · exact Or.inl h

theorem LockManager.makeLockedFiles_timers_ok (requests : List (Path × Int)) :
    ∀ w : World, (QHash.keys w.TheTimers).Nodup →
      (∀ f t, (f, t) ∈ w.TheTimers → t = QTimer.mk (toInt f) false true) →
      (QHash.keys (LockManager.makeLockedFiles w requests).TheTimers).Nodup ∧
      (∀ f t, (f, t) ∈ (LockManager.makeLockedFiles w requests).TheTimers →
        t = QTimer.mk (toInt f) false true) ∧
      (∀ f, f ∈ QHash.keys (LockManager.makeLockedFiles w requests).TheTimers ↔
        f ∈ QHash.keys w.TheTimers ∨ f ∈ requests.map Prod.snd) := by
  induction requests with
  | nil =>
    intro w h1 h2
    exact ⟨h1, h2, by simp [LockManager.makeLockedFiles]⟩
  | cons r rs ih =>
    intro w h1 h2
    obtain ⟨s1, s2, s3⟩ := LockManager.makeLockedFile_timers_ok w r.1 r.2 h1 h2
    obtain ⟨t1, t2, t3⟩ := ih (LockManager.makeLockedFile w r.1 r.2).1 s1 s2
    have hunf : LockManager.makeLockedFiles w (r :: rs) =
        LockManager.makeLockedFiles (LockManager.makeLockedFile w r.1 r.2).1 rs := rfl
    rw [hunf]
    refine ⟨t1, t2, ?_⟩
    intro f
    rw [t3 f, s3 f]
    simp only [List.map_cons, List.mem_cons]
    tauto

/-- C6, as it holds. After any sequence of `makeLockedFile` calls that starts with an empty
timer table, the table has exactly one timer for each distinct `touchFrequency` passed; each is
repeating, started, and has the interval `(int) touchFrequency`, which is the frequency
itself when that fits an `int`. A further call whose frequency has a timer already leaves the
table as it is and registers the new `LockedFile` under that frequency. -/
theorem LockManager.one_timer_per_frequency (w : World) (requests : List (Path × Int))
    (hempty : w.TheTimers = []) :
    (QHash.keys (LockManager.makeLockedFiles w requests).TheTimers).Nodup ∧
    (∀ f, f ∈ QHash.keys (LockManager.makeLockedFiles w requests).TheTimers ↔
      f ∈ requests.map Prod.snd) ∧
    (∀ f t, (f, t) ∈ (LockManager.makeLockedFiles w requests).TheTimers →
      t.singleShot = false ∧ t.active = true ∧ t.interval = toInt f ∧
      (inInt f → t.interval = f)) ∧
    (∀ path f, f ∈ requests.map Prod.snd →
      (LockManager.makeLockedFile (LockManager.makeLockedFiles w requests) path f).1.TheTimers =
        (LockManager.makeLockedFiles w requests).TheTimers ∧
      (LockManager.makeLockedFile (LockManager.makeLockedFiles w requests) path f).1.TheLockedFiles =
        (f, (LockManager.makeLockedFile (LockManager.makeLockedFiles w requests) path f).2) ::
          (LockManager.makeLockedFiles w requests).TheLockedFiles ∧
      (LockManager.makeLockedFile (LockManager.makeLockedFiles w requests) path f).1.heap[
          (LockManager.makeLockedFile (LockManager.makeLockedFiles w requests) path f).2]? =
        some (some (LockedFile.mk path f))) := by
  obtain ⟨h1, h2, h3⟩ := LockManager.makeLockedFiles_timers_ok requests w
    (by rw [hempty]; exact List.nodup_nil) (by rw [hempty]; intro f t h; cases h)
  have hkeys : ∀ f, f ∈ QHash.keys (LockManager.makeLockedFiles w requests).TheTimers ↔
      f ∈ requests.map Prod.snd := by
    intro f
    rw [h3 f, hempty]
    simp [QHash.keys]
  refine ⟨h1, hkeys, ?_, ?_⟩
  · intro f t hft
    have ht := h2 f t hft
    subst ht
    exact ⟨rfl, rfl, rfl, fun hf => toInt_of_inInt f hf⟩
  · intro path f hf
    obtain ⟨t, ht⟩ := QHash.value_isSome_of_mem_keys _ f ((hkeys f).mpr hf)
    refine ⟨?_, ?_, ?_⟩
    · rw [LockManager.makeLockedFile_timers, ht]
    · rw [LockManager.makeLockedFile_registry, LockManager.makeLockedFile_snd]
    · rw [LockManager.makeLockedFile_heap, LockManager.makeLockedFile_snd]
      simp

/-- C6, at two calls with the frequencies `FastTime` and `SlowTime` on the example state. -/
theorem LockManager.one_timer_per_frequency_witness :
    exampleWorld.TheTimers = [] ∧
    (QHash.keys (LockManager.makeLockedFiles exampleWorld
      [(["a"], LockManager.FastTime), (["b"], LockManager.SlowTime)]).TheTimers).Nodup :=
  ⟨rfl, (LockManager.one_timer_per_frequency exampleWorld
      [(["a"], LockManager.FastTime), (["b"], LockManager.SlowTime)] rfl).1⟩

/-- C6 as stated fails: the timer made for the frequency `2^32`, a value of `long`, has the
interval `0`, not the frequency. -/
theorem LockManager.timer_interval_ne_frequency :
    ∃ t, QHash.value (LockManager.makeLockedFiles exampleWorld
        [(["store", "backup", "crashed", "___lockfile___.txt"], 4294967296)]).TheTimers
        4294967296 = some t ∧
      t.singleShot = false ∧ t.active = true ∧ t.interval = 0 ∧ t.interval ≠ 4294967296 ∧
      inLong 4294967296 :=
  ⟨QTimer.mk 0 false true, by decide, rfl, rfl, rfl, by decide, by decide⟩

end Fritzing

namespace Fritzing

/-! ## Releasing the locks -/

theorem FolderUtils.rmdir_root (w : World) (d : Path) (name : String) :
    (FolderUtils.rmdir w (d ++ [name])).root = Node.modifyAt (Node.rmEntry name w.now) d w.root := by
  unfold FolderUtils.rmdir
  simp

theorem FolderUtils.rmdir_exists_self (w : World) (d : Path) (name : String) :
    QDir.exists (FolderUtils.rmdir w (d ++ [name])).root (d ++ [name]) = false := by
  rw [FolderUtils.rmdir_root, QDir.exists, Node.get_modifyAt]
  cases h : w.root.get d with
  | none => simp
  | some m =>
    simp only [Option.some_bind]
    split
    · rename_i a b hab
      exact absurd hab (Node.get_rmEntry_self name w.now m a b)
    · rfl

theorem FolderUtils.rmdir_get_ne (w : World) (d q : Path) (name c : String) (hne : c ≠ name) :
    (FolderUtils.rmdir w (d ++ [name])).root.get (d ++ c :: q) = w.root.get (d ++ c :: q) := by
  rw [FolderUtils.rmdir_root, Node.get_modifyAt, Node.get_append]
  cases h : w.root.get d with
  | none => simp
  | some m => simp [Node.get_rmEntry_ne name c w.now q m hne]

theorem FolderUtils.rmdir_exists_ne (w : World) (d : Path) (name c : String) (hne : c ≠ name) :
    QDir.exists (FolderUtils.rmdir w (d ++ [name])).root (d ++ [c]) =
      QDir.exists w.root (d ++ [c]) := by
  unfold QDir.exists
  rw [FolderUtils.rmdir_get_ne w d [] name c hne]

theorem LockManager.releaseLockedFilesStep_registry (backupDir : Path)
    (lockedFiles : List (String × Nat)) (remove : Bool) (w : World) (sub : String) :
    (∀ e, e ∈ (LockManager.releaseLockedFilesStep backupDir lockedFiles remove w sub).TheLockedFiles →
      e ∈ w.TheLockedFiles) ∧
    (∀ p obj, QHash.value lockedFiles sub = some p → w.heap[p]? = some (some obj) →
      (obj.frequency, p) ∉
        (LockManager.releaseLockedFilesStep backupDir lockedFiles remove w sub).TheLockedFiles) ∧
    (∀ q, QHash.value lockedFiles sub ≠ some q →
      (LockManager.releaseLockedFilesStep backupDir lockedFiles remove w sub).heap[q]? =
        w.heap[q]?) := by
  unfold LockManager.releaseLockedFilesStep
  cases hv : QHash.value lockedFiles sub with
  | none => simp
  | some p =>
    simp only [Option.some.injEq, ne_eq]
    refine ⟨?_, ?_, ?_⟩
    · intro e
      cases hh : w.heap[p]? with
      | none => cases remove <;> simp [FolderUtils.rmdir]
      | some o =>
        cases o with
        | none => cases remove <;> simp [FolderUtils.rmdir]
        | some obj =>
          cases remove <;> simp [FolderUtils.rmdir, QMultiHash.remove] <;> tauto
    · intro p2 obj hp hobj
      subst hp
      rw [hobj]
      cases remove <;> simp [FolderUtils.rmdir, QMultiHash.remove]
    · intro q hq
      have hne : p ≠ q := hq
      cases hh : w.heap[p]? with
      | none => cases remove <;> simp [FolderUtils.rmdir, List.getElem?_set_ne hne]
      | some o =>
        cases o <;> cases remove <;> simp [FolderUtils.rmdir, List.getElem?_set_ne hne]

theorem LockManager.releaseLockedFilesStep_root (backupDir : Path)
    (lockedFiles : List (String × Nat)) (remove : Bool) (w : World) (sub : String) :
    (remove = false →
      (LockManager.releaseLockedFilesStep backupDir lockedFiles remove w sub).root = w.root ∧
      (LockManager.releaseLockedFilesStep backupDir lockedFiles remove w sub).calls = w.calls) ∧
    (remove = true → QHash.value lockedFiles sub ≠ none →
      QDir.exists (LockManager.releaseLockedFilesStep backupDir lockedFiles remove w sub).root
        (backupDir ++ [sub]) = false) ∧
    (∀ c, QDir.exists w.root (backupDir ++ [c]) = false →
      QDir.exists (LockManager.releaseLockedFilesStep backupDir lockedFiles remove w sub).root
        (backupDir ++ [c]) = false) := by
  unfold LockManager.releaseLockedFilesStep
  cases hv : QHash.value lockedFiles sub with
  | none => simp
  | some p =>
    have hnow : ∀ x : World, ({ x with TheLockedFiles := x.TheLockedFiles } : World) = x := by
      intro x; rfl
    refine ⟨?_, ?_, ?_⟩
    · intro hr
      subst hr
      simp only [Bool.false_eq_true, if_false]
      split <;> exact ⟨rfl, rfl⟩
    · intro hr _
      subst hr
      simp only [if_true, QDir.absoluteFilePath]
      exact FolderUtils.rmdir_exists_self _ backupDir sub
    · intro c hc
      cases remove
      · simp only [Bool.false_eq_true, if_false]
        split <;> exact hc
      · simp only [if_true, QDir.absoluteFilePath]
        by_cases hcs : c = sub
        · subst hcs
          exact FolderUtils.rmdir_exists_self _ backupDir c
        · show QDir.exists (FolderUtils.rmdir _ (backupDir ++ [sub])).root (backupDir ++ [c]) = false
          rw [FolderUtils.rmdir_exists_ne _ backupDir sub c hcs]
          split <;> exact hc

end Fritzing

namespace Fritzing

/-- The loop of `releaseLockedFiles` over the keys `ks`, started in the state `cur` of a
release that began in `w0`. -/
theorem LockManager.releaseLockedFiles_foldl (backupDir : Path)
    (lockedFiles : List (String × Nat)) (remove : Bool) (w0 : World) (ks : List String) :
    ∀ cur : World,
      (∀ p, cur.heap[p]? = w0.heap[p]? ∨
        ∀ obj, w0.heap[p]? = some (some obj) → (obj.frequency, p) ∉ cur.TheLockedFiles) →
      (∀ e, e ∈ (ks.foldl (LockManager.releaseLockedFilesStep backupDir lockedFiles remove)
          cur).TheLockedFiles → e ∈ cur.TheLockedFiles) ∧
      (∀ sub ∈ ks, ∀ p obj, QHash.value lockedFiles sub = some p →
        w0.heap[p]? = some (some obj) →
        (obj.frequency, p) ∉ (ks.foldl
          (LockManager.releaseLockedFilesStep backupDir lockedFiles remove) cur).TheLockedFiles) ∧
      (remove = false →
        (ks.foldl (LockManager.releaseLockedFilesStep backupDir lockedFiles remove) cur).root =
          cur.root ∧
        (ks.foldl (LockManager.releaseLockedFilesStep backupDir lockedFiles remove) cur).calls =
          cur.calls) ∧
      (remove = true → ∀ sub ∈ ks, QHash.value lockedFiles sub ≠ none →
        QDir.exists (ks.foldl (LockManager.releaseLockedFilesStep backupDir lockedFiles remove)
          cur).root (backupDir ++ [sub]) = false) ∧
      (∀ c, QDir.exists cur.root (backupDir ++ [c]) = false →
        QDir.exists (ks.foldl (LockManager.releaseLockedFilesStep backupDir lockedFiles remove)
          cur).root (backupDir ++ [c]) = false) := by
  induction ks with
  | nil =>
    intro cur _
    simp
  | cons k ks ih =>
    intro cur hgood
    obtain ⟨r1, r2, r3⟩ :=
      LockManager.releaseLockedFilesStep_registry backupDir lockedFiles remove cur k
    obtain ⟨f1, f2, f3⟩ :=
      LockManager.releaseLockedFilesStep_root backupDir lockedFiles remove cur k
    have hremoved : ∀ p obj, QHash.value lockedFiles k = some p →
        w0.heap[p]? = some (some obj) → (obj.frequency, p) ∉
          (LockManager.releaseLockedFilesStep backupDir lockedFiles remove cur k).TheLockedFiles := by
      intro p obj hp hobj
      rcases hgood p with h | h
      · exact r2 p obj hp (by rw [h]; exact hobj)
      · exact fun hmem => h obj hobj (r1 _ hmem)
    have hgood2 : ∀ p,
        (LockManager.releaseLockedFilesStep backupDir lockedFiles remove cur k).heap[p]? =
          w0.heap[p]? ∨
        ∀ obj, w0.heap[p]? = some (some obj) → (obj.frequency, p) ∉
          (LockManager.releaseLockedFilesStep backupDir lockedFiles remove cur k).TheLockedFiles := by
      intro p
      by_cases hp : QHash.value lockedFiles k = some p
      · exact Or.inr (fun obj hobj => hremoved p obj hp hobj)
      · rcases hgood p with h | h
        · exact Or.inl (by rw [r3 p hp]; exact h)
        · exact Or.inr (fun obj hobj hmem => h obj hobj (r1 _ hmem))
    obtain ⟨i1, i2, i3, i4, i5⟩ :=
      ih (LockManager.releaseLockedFilesStep backupDir lockedFiles remove cur k) hgood2
    simp only [List.foldl_cons]
    refine ⟨fun e he => r1 e (i1 e he), ?_, ?_, ?_, ?_⟩
    · intro sub hsub p obj hp hobj
      rcases List.mem_cons.mp hsub with h | h
      · subst h
        exact fun hmem => hremoved p obj hp hobj (i1 _ hmem)
      · exact i2 sub h p obj hp hobj
    · intro hr
      obtain ⟨a1, a2⟩ := i3 hr
      obtain ⟨b1, b2⟩ := f1 hr
      exact ⟨by rw [a1, b1], by rw [a2, b2]⟩
    · intro hr sub hsub hv
      rcases List.mem_cons.mp hsub with h | h
      · subst h
        exact i5 sub (f2 hr hv)
      · exact i4 hr sub h hv
    · intro c hc
      exact i5 c (f3 c hc)

/-- C4. When the parent directory of `folder` can be entered,
`releaseLockedFiles(folder, lockedFiles, remove)` takes every `LockedFile` that `lockedFiles`
holds out of the registry, under the frequency of that object; it leaves `lockedFiles` empty;
with `remove` set no directory `<parent of folder>/<key>` is left for any key, and with
`remove` clear the file system is as before and `rmdir` is never called. The overload with two
arguments is the same function with `remove = true`. -/
theorem LockManager.releaseLockedFiles_releases (w : World) (folder : Path)
    (lockedFiles : List (String × Nat)) (remove : Bool)
    (hcd : (QDir.cdUp w.root folder).2 = true) :
    (∀ sub p obj, QHash.value lockedFiles sub = some p → w.heap[p]? = some (some obj) →
      (obj.frequency, p) ∉
        (LockManager.releaseLockedFiles w folder lockedFiles remove).1.TheLockedFiles) ∧
    (LockManager.releaseLockedFiles w folder lockedFiles remove).2 = [] ∧
    (remove = true → ∀ sub ∈ QHash.keys lockedFiles,
      QDir.exists (LockManager.releaseLockedFiles w folder lockedFiles remove).1.root
        (folder.dropLast ++ [sub]) = false) ∧
    (remove = false →
      (LockManager.releaseLockedFiles w folder lockedFiles remove).1.root = w.root ∧
      (LockManager.releaseLockedFiles w folder lockedFiles remove).1.calls = w.calls) ∧
    LockManager.releaseLockedFiles2 w folder lockedFiles =
      LockManager.releaseLockedFiles w folder lockedFiles true := by
  have hparent : (QDir.cdUp w.root folder).1 = folder.dropLast := by
    unfold QDir.cdUp at hcd ⊢
    by_cases h1 : folder = []
    · simp [h1] at hcd
    · by_cases h2 : QDir.exists w.root folder.dropLast = true
      · simp [h1, h2]
      · simp [h1, h2] at hcd
  have hrel : LockManager.releaseLockedFiles w folder lockedFiles remove =
      ((QHash.keys lockedFiles).foldl
        (LockManager.releaseLockedFilesStep folder.dropLast lockedFiles remove) w, []) := by
    unfold LockManager.releaseLockedFiles
    simp [hcd, hparent]
  obtain ⟨_, i2, i3, i4, _⟩ := LockManager.releaseLockedFiles_foldl folder.dropLast lockedFiles
    remove w (QHash.keys lockedFiles) w (fun p => Or.inl rfl)
  rw [hrel]
  refine ⟨?_, rfl, ?_, i3, rfl⟩
  · intro sub p obj hp hobj
    have hsub : sub ∈ QHash.keys lockedFiles := by
      by_contra hc
      rw [(QHash.value_eq_none _ _).mpr hc] at hp
      cases hp
    exact i2 sub hsub p obj hp hobj
  · intro hr sub hsub
    obtain ⟨v, hv⟩ := QHash.value_isSome_of_mem_keys lockedFiles sub hsub
    exact i4 hr sub hsub (by rw [hv]; simp)

end Fritzing

namespace Fritzing

/-! ## Creating the own backup folder -/

theorem Node.get_modifyAt_self (g : Node → Node) (p : Path) (n : Node) :
    (Node.modifyAt g p n).get p = (n.get p).map g := by
  have h := Node.get_modifyAt g p [] n
  rw [List.append_nil] at h
  rw [h]
  cases n.get p <;> simp [Node.get_nil]

theorem QDir.exists_iff (root : Node) (d : Path) :
    QDir.exists root d = true ↔ ∃ m es, root.get d = some (Node.dir m es) := by
  unfold QDir.exists
  constructor
  · intro h
    split at h
    · rename_i m es hg
      exact ⟨m, es, hg⟩
    · cases h
  · rintro ⟨m, es, hg⟩
    rw [hg]

/-- Whatever lies below a path lies in a directory. -/
theorem QDir.exists_parent (root : Node) (d : Path) (c : String) (x : Node)
    (h : root.get (d ++ [c]) = some x) : QDir.exists root d = true := by
  rw [Node.get_append] at h
  cases hd : root.get d with
  | none => rw [hd] at h; cases h
  | some m =>
    cases m with
    | file t => rw [hd] at h; simp [Node.get_cons, Node.entries, QHash.value] at h
    | dir t es => exact (QDir.exists_iff root d).mpr ⟨t, es, hd⟩

theorem QDir.mkdir_true (root : Node) (now : Int) (d : Path) (name : String)
    (h : (QDir.mkdir root now d name).2 = true) :
    ∃ m es, root.get d = some (Node.dir m es) ∧ QHash.value es name = none ∧
      (QDir.mkdir root now d name).1 = Node.modifyAt (Node.mkdirEntry name now) d root := by
  unfold QDir.mkdir at h ⊢
  cases hd : root.get d with
  | none => rw [hd] at h; cases h
  | some x =>
    cases x with
    | file t => rw [hd] at h; cases h
    | dir t es =>
      cases hv : QHash.value es name with
      | some y => simp [hd, hv] at h
      | none => exact ⟨t, es, rfl, hv, by simp [hv]⟩

theorem QFile.rewrite_eq (root : Node) (now : Int) (d : Path) (name : String) :
    QFile.rewrite root now (d ++ [name]) = Node.modifyAt (Node.touchEntry name now) d root := by
  unfold QFile.rewrite
  simp

theorem QFile.canOpen_eq (root : Node) (d : Path) (name : String) :
    QFile.canOpen root (d ++ [name]) =
      (match root.get d with
       | some (Node.dir _ es) =>
         (match QHash.value es name with
          | some (Node.dir _ _) => false
          | _ => true)
       | _ => false) := by
  unfold QFile.canOpen
  simp

/-- What `initLockedFiles` does when `touchFrequency > 0` and the `mkdir` succeeds. -/
theorem LockManager.initLockedFiles_created (store : Path) (randText : String) (w : World)
    (pfx : Path) (lockedFiles : List (String × Nat)) (tf : Int) (htf : tf > 0)
    (hmk : (QDir.mkdir w.root w.now (QDir.cd w.root store pfx).1 randText).2 = true) :
    (LockManager.initLockedFiles store randText w pfx lockedFiles tf).2.1 =
      (QDir.cd w.root store pfx).1 ++ [randText] ∧
    (LockManager.initLockedFiles store randText w pfx lockedFiles tf).2.2 =
      QHash.insert lockedFiles randText w.heap.length ∧
    (LockManager.initLockedFiles store randText w pfx lockedFiles tf).1.heap =
      w.heap ++ [some (LockedFile.mk
        ((QDir.cd w.root store pfx).1 ++ [randText] ++ [LockManager.LockedFileName]) tf)] ∧
    (LockManager.initLockedFiles store randText w pfx lockedFiles tf).1.TheLockedFiles =
      (tf, w.heap.length) :: w.TheLockedFiles ∧
    (LockManager.initLockedFiles store randText w pfx lockedFiles tf).1.now = w.now ∧
    QDir.exists w.root ((QDir.cd w.root store pfx).1 ++ [randText]) = false ∧
    (LockManager.initLockedFiles store randText w pfx lockedFiles tf).1.root.get
        ((QDir.cd w.root store pfx).1 ++ [randText]) =
      some (Node.dir w.now [(LockManager.LockedFileName, Node.file w.now)]) ∧
    (LockManager.initLockedFiles store randText w pfx lockedFiles tf).1.calls =
      w.calls ++ [Call.touch w.heap.length
        ((QDir.cd w.root store pfx).1 ++ [randText] ++ [LockManager.LockedFileName]) true] := by
  obtain ⟨m, es, hd, hv, hroot⟩ := QDir.mkdir_true _ _ _ _ hmk
  obtain ⟨B, hB⟩ : ∃ B, (QDir.cd w.root store pfx).1 = B := ⟨_, rfl⟩
  rw [hB] at hd hroot
  simp only [hB]
  have hnew : (Node.modifyAt (Node.mkdirEntry randText w.now) B w.root).get (B ++ [randText]) =
      some (Node.dir w.now []) := by
    rw [Node.get_modifyAt, hd]
    simp [Node.mkdirEntry, hv, Node.get_cons, Node.entries, QHash.value_append, QHash.value,
      Node.get_nil]
  have hinit : LockManager.initLockedFiles store randText w pfx lockedFiles tf =
      ((LockManager.makeLockedFile
          { w with root := Node.modifyAt (Node.mkdirEntry randText w.now) B w.root }
          (B ++ [randText] ++ [LockManager.LockedFileName]) tf).1,
        B ++ [randText],
        QHash.insert lockedFiles randText (LockManager.makeLockedFile
          { w with root := Node.modifyAt (Node.mkdirEntry randText w.now) B w.root }
          (B ++ [randText] ++ [LockManager.LockedFileName]) tf).2) := by
    unfold LockManager.initLockedFiles
    simp only [htf, if_true, QDir.absoluteFilePath, hB, hroot]
  have hopen : QFile.canOpen (Node.modifyAt (Node.mkdirEntry randText w.now) B w.root)
      (B ++ [randText] ++ [LockManager.LockedFileName]) = true := by
    rw [QFile.canOpen_eq, hnew]
    simp [QHash.value]
  rw [hinit]
  refine ⟨rfl, ?_, ?_, ?_, ?_, ?_, ?_, ?_⟩
  · simp only [LockManager.makeLockedFile_snd]
  · simp only [LockManager.makeLockedFile_heap]
  · simp only [LockManager.makeLockedFile_registry]
  · simp only [LockManager.makeLockedFile_now]
  · unfold QDir.exists
    rw [Node.get_append, hd]
    simp [Node.get_cons, Node.entries, hv]
  · simp only [LockManager.makeLockedFile_root]
    rw [QFile.rewrite_eq, Node.get_modifyAt_self, hnew]
    simp [Node.touchEntry, QHash.value]
  · simp only [LockManager.makeLockedFile_calls, hopen]

end Fritzing

namespace Fritzing

theorem QDir.cd_true (root : Node) (d dirName : Path) (h : (QDir.cd root d dirName).2 = true) :
    (QDir.cd root d dirName).1 = d ++ dirName := by
  unfold QDir.cd at h ⊢
  by_cases h1 : dirName = []
  · simp [h1]
  · by_cases h2 : QDir.exists root (d ++ dirName) = true
    · simp [h1, h2]
    · simp [h1, h2] at h

/-- C5, as it holds. For `touchFrequency > 0`, when `<user data store>/<prefix>` can be
entered and the `mkdir` of the random name succeeds, `initLockedFiles` returns in `folder` the
path of that new subfolder, which did not exist before and exists now, and `lockedFiles` has
under the subfolder's name a new `LockedFile` with the path `folder + "/___lockfile___.txt"` and
the frequency `touchFrequency`, which has been touched (its file now exists, written at the
current time) and is in the registry under `touchFrequency`. -/
theorem LockManager.initLockedFiles_locks (store : Path) (randText : String) (w : World)
    (pfx : Path) (lockedFiles : List (String × Nat)) (tf : Int) (htf : tf > 0)
    (hcd : (QDir.cd w.root store pfx).2 = true)
    (hmk : (QDir.mkdir w.root w.now (store ++ pfx) randText).2 = true) :
    (LockManager.initLockedFiles store randText w pfx lockedFiles tf).2.1 =
      store ++ pfx ++ [randText] ∧
    QDir.exists w.root (store ++ pfx ++ [randText]) = false ∧
    QDir.exists (LockManager.initLockedFiles store randText w pfx lockedFiles tf).1.root
      (store ++ pfx ++ [randText]) = true ∧
    ∃ p, QHash.value (LockManager.initLockedFiles store randText w pfx lockedFiles tf).2.2
        randText = some p ∧
      w.heap[p]? = none ∧
      (LockManager.initLockedFiles store randText w pfx lockedFiles tf).1.heap[p]? =
        some (some (LockedFile.mk
          (store ++ pfx ++ [randText] ++ [LockManager.LockedFileName]) tf)) ∧
      Call.touch p (store ++ pfx ++ [randText] ++ [LockManager.LockedFileName]) true ∈
        (LockManager.initLockedFiles store randText w pfx lockedFiles tf).1.calls ∧
      (LockManager.initLockedFiles store randText w pfx lockedFiles tf).1.root.get
        (store ++ pfx ++ [randText] ++ [LockManager.LockedFileName]) =
          some (Node.file w.now) ∧
      (tf, p) ∈ (LockManager.initLockedFiles store randText w pfx lockedFiles tf).1.TheLockedFiles := by
  have hB := QDir.cd_true _ _ _ hcd
  rw [← hB] at hmk
  obtain ⟨c1, c2, c3, c4, _, c6, c7, c8⟩ :=
    LockManager.initLockedFiles_created store randText w pfx lockedFiles tf htf hmk
  rw [hB] at c1 c3 c6 c7 c8
  refine ⟨c1, c6, ?_, w.heap.length, ?_, ?_, ?_, ?_, ?_, ?_⟩
  · exact (QDir.exists_iff _ _).mpr ⟨_, _, c7⟩
  · rw [c2]; exact QHash.value_insert_self _ _ _
  · simp
  · rw [c3]; simp
  · rw [c8]; simp
  · rw [Node.get_append, c7]
    simp [Node.get_cons, Node.entries, QHash.value, Node.get_nil]
  · rw [c4]; exact List.mem_cons_self _ _

/-- C5, on the example state with the frequency `FastTime`. -/
theorem LockManager.initLockedFiles_locks_witness :
    (LockManager.initLockedFiles ["store"] "Qx7" exampleWorld ["backup"] []
      LockManager.FastTime).2.1 = ["store", "backup", "Qx7"] :=
  (LockManager.initLockedFiles_locks ["store"] "Qx7" exampleWorld ["backup"] []
    LockManager.FastTime (by decide) (by decide) (by decide)).1

/-- C5 as stated fails: with `touchFrequency = 0` the subfolder is created, but
`lockedFiles` gets no entry for it, no lock file is written and nothing is registered. -/
theorem LockManager.initLockedFiles_zero_frequency :
    QDir.exists (LockManager.initLockedFiles ["store"] "Qx7" exampleWorld ["backup"] []
      0).1.root ["store", "backup", "Qx7"] = true ∧
    QHash.value (LockManager.initLockedFiles ["store"] "Qx7" exampleWorld ["backup"] []
      0).2.2 "Qx7" = none ∧
    (LockManager.initLockedFiles ["store"] "Qx7" exampleWorld ["backup"] []
      0).1.TheLockedFiles = [] ∧
    (LockManager.initLockedFiles ["store"] "Qx7" exampleWorld ["backup"] []
      0).1.root.get ["store", "backup", "Qx7", "___lockfile___.txt"] = none := by
  refine ⟨by decide, by decide, by decide, by rfl⟩

/-! ## Init followed by release -/

theorem QMultiHash.remove_cons_self {κ α : Type} [DecidableEq κ] [DecidableEq α]
    (h : List (κ × α)) (k : κ) (v : α) (hnot : (k, v) ∉ h) :
    QMultiHash.remove ((k, v) :: h) k v = h := by
  unfold QMultiHash.remove
  rw [List.filter_cons]
  simp only [and_self, not_true_eq_false, decide_False, Bool.false_eq_true, if_false]
  rw [List.filter_eq_self]
  intro e he
  simp only [decide_eq_true_eq]
  rintro ⟨h1, h2⟩
  apply hnot
  cases e
  simp only at h1 h2
  subst h1; subst h2
  exact he

/-- C9. For `touchFrequency > 0` and an empty `lockedFiles`, when the folder creation
succeeds, `initLockedFiles` followed by `releaseLockedFiles(folder, lockedFiles)` leaves the
registry of locked files as it was before the init, leaves `lockedFiles` empty, and the folder
that init created (it exists in between) is gone. (The pointers in the registry are assumed to
be addresses of objects allocated before.) -/
theorem LockManager.init_release_round_trip (store : Path) (randText : String) (w : World)
    (pfx : Path) (tf : Int) (htf : tf > 0)
    (hmk : (QDir.mkdir w.root w.now (QDir.cd w.root store pfx).1 randText).2 = true)
    (halloc : ∀ e ∈ w.TheLockedFiles, e.2 < w.heap.length) :
    (LockManager.releaseLockedFiles2
      (LockManager.initLockedFiles store randText w pfx [] tf).1
      (LockManager.initLockedFiles store randText w pfx [] tf).2.1
      (LockManager.initLockedFiles store randText w pfx [] tf).2.2).1.TheLockedFiles =
        w.TheLockedFiles ∧
    (LockManager.releaseLockedFiles2
      (LockManager.initLockedFiles store randText w pfx [] tf).1
      (LockManager.initLockedFiles store randText w pfx [] tf).2.1
      (LockManager.initLockedFiles store randText w pfx [] tf).2.2).2 = [] ∧
    QDir.exists (LockManager.initLockedFiles store randText w pfx [] tf).1.root
      (LockManager.initLockedFiles store randText w pfx [] tf).2.1 = true ∧
    QDir.exists (LockManager.releaseLockedFiles2
      (LockManager.initLockedFiles store randText w pfx [] tf).1
      (LockManager.initLockedFiles store randText w pfx [] tf).2.1
      (LockManager.initLockedFiles store randText w pfx [] tf).2.2).1.root
      (LockManager.initLockedFiles store randText w pfx [] tf).2.1 = false := by
  obtain ⟨c1, c2, c3, c4, _, _, c7, _⟩ :=
    LockManager.initLockedFiles_created store randText w pfx [] tf htf hmk
  obtain ⟨B, hB⟩ : ∃ B, (QDir.cd w.root store pfx).1 = B := ⟨_, rfl⟩
  rw [hB] at c1 c3 c7
  obtain ⟨w1, hw1⟩ : ∃ w1, (LockManager.initLockedFiles store randText w pfx [] tf).1 = w1 :=
    ⟨_, rfl⟩
  rw [hw1] at c3 c4 c7
  rw [hw1, c1, c2]
  have hparent : QDir.exists w1.root B = true := QDir.exists_parent _ _ _ _ c7
  have hfresh : (tf, w.heap.length) ∉ w.TheLockedFiles := by
    intro hmem
    exact absurd (halloc _ hmem) (lt_irrefl _)
  have hcdUp : QDir.cdUp w1.root (B ++ [randText]) = (B, true) := by
    unfold QDir.cdUp
    simp [hparent]
  have hobj : w1.heap[w.heap.length]? = some (some (LockedFile.mk
      (B ++ [randText] ++ [LockManager.LockedFileName]) tf)) := by
    rw [c3]; simp
  have hrel : LockManager.releaseLockedFiles2 w1 (B ++ [randText])
      (QHash.insert [] randText w.heap.length) =
      (LockManager.releaseLockedFilesStep B (QHash.insert [] randText w.heap.length) true w1
        randText, []) := by
    unfold LockManager.releaseLockedFiles2 LockManager.releaseLockedFiles
    simp [hcdUp, QHash.insert, QHash.remove, QHash.keys]
  rw [hrel]
  have hstep : LockManager.releaseLockedFilesStep B (QHash.insert [] randText w.heap.length)
      true w1 randText =
      { (FolderUtils.rmdir { w1 with TheLockedFiles := w.TheLockedFiles } (B ++ [randText])) with
        heap := w1.heap.set w.heap.length none } := by
    unfold LockManager.releaseLockedFilesStep
    simp only [QHash.value_insert_self, hobj, c4, QMultiHash.remove_cons_self _ _ _ hfresh,
      if_true, QDir.absoluteFilePath]
    rfl
  rw [hstep]
  refine ⟨rfl, rfl, (QDir.exists_iff _ _).mpr ⟨_, _, c7⟩, ?_⟩
  exact FolderUtils.rmdir_exists_self _ B randText

/-- C9, on the example state with the frequency `FastTime`. -/
theorem LockManager.init_release_round_trip_witness :
    (LockManager.releaseLockedFiles2
      (LockManager.initLockedFiles ["store"] "Qx7" exampleWorld ["backup"] []
        LockManager.FastTime).1
      (LockManager.initLockedFiles ["store"] "Qx7" exampleWorld ["backup"] []
        LockManager.FastTime).2.1
      (LockManager.initLockedFiles ["store"] "Qx7" exampleWorld ["backup"] []
        LockManager.FastTime).2.2).1.TheLockedFiles = exampleWorld.TheLockedFiles :=
  (LockManager.init_release_round_trip ["store"] "Qx7" exampleWorld ["backup"]
    LockManager.FastTime (by decide) (by decide) (by decide)).1

end Fritzing

namespace Fritzing

/-- C4, releasing the folder that `initLockedFiles` made in the example state. -/
theorem LockManager.releaseLockedFiles_releases_witness :
    (LockManager.releaseLockedFiles exampleHeld.1 exampleHeld.2.1 exampleHeld.2.2 true).2 = [] ∧
    QDir.exists
      (LockManager.releaseLockedFiles exampleHeld.1 exampleHeld.2.1 exampleHeld.2.2 true).1.root
      (exampleHeld.2.1.dropLast ++ ["Qx7"]) = false :=
  have h := LockManager.releaseLockedFiles_releases exampleHeld.1 exampleHeld.2.1
    exampleHeld.2.2 true (by decide)
  ⟨h.2.1, h.2.2.1 rfl "Qx7" (by decide)⟩

end Fritzing

namespace Fritzing

/-! ## The loop of `checkLockedFiles` -/

theorem LockManager.untouched_refl (P : Path) (n : String) (s : LockManager.CheckState) :
    LockManager.Untouched P n s s :=
  { root := rfl
    now := rfl
    lockedFiles := rfl
    backupList := ⟨[], by simp, by simp⟩
    heap := ⟨[], by simp, by simp⟩
    registry := ⟨[], by simp, by simp⟩
    calls := ⟨[], by simp, by simp⟩ }

theorem LockManager.untouched_trans (P : Path) (n : String) (s1 s2 s3 : LockManager.CheckState)
    (h12 : LockManager.Untouched P n s1 s2) (h23 : LockManager.Untouched P n s2 s3) :
    LockManager.Untouched P n s1 s3 := by
  obtain ⟨a1, ha1, ha1p⟩ := h12.backupList
  obtain ⟨a2, ha2, ha2p⟩ := h23.backupList
  obtain ⟨o1, ho1, ho1p⟩ := h12.heap
  obtain ⟨o2, ho2, ho2p⟩ := h23.heap
  obtain ⟨r1, hr1, hr1p⟩ := h12.registry
  obtain ⟨r2, hr2, hr2p⟩ := h23.registry
  obtain ⟨c1, hc1, hc1p⟩ := h12.calls
  obtain ⟨c2, hc2, hc2p⟩ := h23.calls
  refine ⟨h23.root.trans h12.root, h23.now.trans h12.now,
    h23.lockedFiles.trans h12.lockedFiles, ⟨a1 ++ a2, ?_, ?_⟩, ⟨o1 ++ o2, ?_, ?_⟩,
    ⟨r2 ++ r1, ?_, ?_⟩, ⟨c1 ++ c2, ?_, ?_⟩⟩
  · rw [ha2, ha1, List.append_assoc]
  · intro i hi
    rcases List.mem_append.mp hi with h | h
    · exact ha1p i h
    · exact ha2p i h
  · rw [ho2, ho1, List.append_assoc]
  · intro obj hobj
    rcases List.mem_append.mp hobj with h | h
    · exact ho1p obj h
    · exact ho2p obj h
  · rw [hr2, hr1, List.append_assoc]
  · intro e he
    rcases List.mem_append.mp he with h | h
    · have := hr2p e h
      rw [ho1, List.length_append] at this
      omega
    · exact hr1p e h
  · rw [hc2, hc1, List.append_assoc]
  · intro c hc
    rcases List.mem_append.mp hc with h | h
    · exact hc1p c h
    · exact hc2p c h

theorem QDir.entryInfoList_dir (root : Node) (d : Path) (wantDirs : Bool) :
    ∀ i ∈ QDir.entryInfoList root d wantDirs, i.dir = d := by
  intro i hi
  unfold QDir.entryInfoList at hi
  cases h : root.get d with
  | none => rw [h] at hi; cases hi
  | some n =>
    rw [h] at hi
    simp only [List.mem_map] at hi
    obtain ⟨e, _, he⟩ := hi
    rw [← he]

/-- A round of the loop for another subfolder does not concern the subfolder `n`. -/
theorem LockManager.checkLockedFilesStep_other (P : Path) (n : String) (recurse : Bool)
    (tf : Int) (s : LockManager.CheckState) (i : QFileInfo) (hdir : i.dir = P)
    (hne : i.fileName ≠ n) :
    LockManager.Untouched P n s (LockManager.checkLockedFilesStep recurse tf s i) := by
  have hne2 : n ≠ i.fileName := fun h => hne h.symm
  have hpath : P ++ [i.fileName] ≠ P ++ [n] := by
    intro h
    exact hne (by simpa using h)
  have hlock : P ++ [i.fileName] ++ [LockManager.LockedFileName] ≠
      P ++ [n] ++ [LockManager.LockedFileName] := by
    intro h
    exact hne (by simpa using h)
  have hrm : LockManager.Untouched P n s
      { s with w := FolderUtils.rmdir s.w (P ++ [i.fileName]) } := by
    refine ⟨?_, rfl, rfl, ⟨[], by simp, by simp⟩, ⟨[], by simp [FolderUtils.rmdir], by simp⟩,
      ⟨[], by simp [FolderUtils.rmdir], by simp⟩,
      ⟨[Call.rmdir (P ++ [i.fileName])], by simp [FolderUtils.rmdir], ?_⟩⟩
    · exact FolderUtils.rmdir_get_ne s.w P [] i.fileName n hne2
    · intro c hc
      rw [List.mem_singleton.mp hc]
      exact ⟨fun h => hpath (by injection h), fun p o h => by cases h⟩
  have hclaim : LockManager.Untouched P n s
      { w := (LockManager.makeLockedFile s.w (P ++ [i.fileName] ++
          [LockManager.LockedFileName]) tf).1
        lockedFiles := QHash.insert s.lockedFiles i.fileName
          (LockManager.makeLockedFile s.w (P ++ [i.fileName] ++
            [LockManager.LockedFileName]) tf).2
        backupList := s.backupList ++ QDir.entryInfoList s.w.root (P ++ [i.fileName]) false } := by
    refine ⟨?_, ?_, ?_, ⟨_, rfl, ?_⟩, ⟨_, LockManager.makeLockedFile_heap _ _ _, ?_⟩,
      ⟨[(tf, s.w.heap.length)], LockManager.makeLockedFile_registry _ _ _, ?_⟩,
      ⟨_, LockManager.makeLockedFile_calls _ _ _, ?_⟩⟩
    · simp only [LockManager.makeLockedFile_root, QFile.rewrite_eq]
      exact Node.get_modifyAt_other _ P [] [] i.fileName n s.w.root hne2
    · simp only [LockManager.makeLockedFile_now]
    · exact QHash.value_insert_ne _ _ _ _ hne2
    · intro j hj
      rw [QDir.entryInfoList_dir _ _ _ j hj]
      exact hpath
    · intro obj hobj
      rw [List.mem_singleton] at hobj
      injection hobj with hobj
      rw [hobj]
      exact hlock
    · intro e he
      rw [List.mem_singleton.mp he]
    · intro c hc
      rw [List.mem_singleton.mp hc]
      exact ⟨fun h => (by cases h), fun p o h => hlock (by injection h)⟩
  unfold LockManager.checkLockedFilesStep
  simp only [QFileInfo.filePath, hdir, QDir.absoluteFilePath]
  split_ifs <;> first | exact hrm | exact LockManager.untouched_refl P n s | exact hclaim

theorem LockManager.checkLockedFiles_foldl_other (P : Path) (n : String) (recurse : Bool)
    (tf : Int) (l : List QFileInfo) :
    ∀ s : LockManager.CheckState, (∀ i ∈ l, i.dir = P ∧ i.fileName ≠ n) →
      LockManager.Untouched P n s (l.foldl (LockManager.checkLockedFilesStep recurse tf) s) := by
  induction l with
  | nil =>
    intro s _
    exact LockManager.untouched_refl P n s
  | cons i l ih =>
    intro s h
    have hi := h i (List.mem_cons_self _ _)
    exact LockManager.untouched_trans P n _ _ _
      (LockManager.checkLockedFilesStep_other P n recurse tf s i hi.1 hi.2)
      (ih _ (fun j hj => h j (List.mem_cons_of_mem _ hj)))

end Fritzing

namespace Fritzing

theorem LockManager.untouched_notClaimed (P : Path) (n : String) (s s2 : LockManager.CheckState)
    (h : LockManager.Untouched P n s s2) : LockManager.NotClaimed P n s s2 := by
  obtain ⟨cs, hcs, hcsp⟩ := h.calls
  exact ⟨h.lockedFiles, h.backupList, h.heap, h.registry, ⟨cs, hcs, fun c hc => (hcsp c hc).2⟩⟩

theorem LockManager.notClaimed_trans (P : Path) (n : String) (s1 s2 s3 : LockManager.CheckState)
    (h12 : LockManager.NotClaimed P n s1 s2) (h23 : LockManager.NotClaimed P n s2 s3) :
    LockManager.NotClaimed P n s1 s3 := by
  obtain ⟨a1, ha1, ha1p⟩ := h12.backupList
  obtain ⟨a2, ha2, ha2p⟩ := h23.backupList
  obtain ⟨o1, ho1, ho1p⟩ := h12.heap
  obtain ⟨o2, ho2, ho2p⟩ := h23.heap
  obtain ⟨r1, hr1, hr1p⟩ := h12.registry
  obtain ⟨r2, hr2, hr2p⟩ := h23.registry
  obtain ⟨c1, hc1, hc1p⟩ := h12.calls
  obtain ⟨c2, hc2, hc2p⟩ := h23.calls
  refine ⟨h23.lockedFiles.trans h12.lockedFiles, ⟨a1 ++ a2, ?_, ?_⟩, ⟨o1 ++ o2, ?_, ?_⟩,
    ⟨r2 ++ r1, ?_, ?_⟩, ⟨c1 ++ c2, ?_, ?_⟩⟩
  · rw [ha2, ha1, List.append_assoc]
  · intro i hi
    rcases List.mem_append.mp hi with h | h
    · exact ha1p i h
    · exact ha2p i h
  · rw [ho2, ho1, List.append_assoc]
  · intro obj hobj
    rcases List.mem_append.mp hobj with h | h
    · exact ho1p obj h
    · exact ho2p obj h
  · rw [hr2, hr1, List.append_assoc]
  · intro e he
    rcases List.mem_append.mp he with h | h
    · have := hr2p e h
      rw [ho1, List.length_append] at this
      omega
    · exact hr1p e h
  · rw [hc2, hc1, List.append_assoc]
  · intro c hc
    rcases List.mem_append.mp hc with h | h
    · exact hc1p c h
    · exact hc2p c h

/-- No new registry item is for the lock file of a subfolder that was not claimed. -/
theorem LockManager.notClaimed_not_registered (P : Path) (n : String)
    (s s2 : LockManager.CheckState) (h : LockManager.NotClaimed P n s s2) :
    ∃ regs, s2.w.TheLockedFiles = regs ++ s.w.TheLockedFiles ∧
      ∀ e ∈ regs, ∀ obj, s2.w.heap[e.2]? = some (some obj) →
        obj.file ≠ P ++ [n] ++ [LockManager.LockedFileName] := by
  obtain ⟨o, ho, hop⟩ := h.heap
  obtain ⟨r, hr, hrp⟩ := h.registry
  refine ⟨r, hr, ?_⟩
  intro e he obj hobj
  rw [ho, List.getElem?_append_right (hrp e he)] at hobj
  exact hop obj (List.getElem?_mem hobj)

theorem QDir.entryInfoList_files (root : Node) (d : Path) (sub : Node)
    (h : root.get d = some sub) :
    QDir.entryInfoList root d false =
      sub.files.map (fun e => QFileInfo.mk d e.1 e.2.lastModified) := by
  unfold QDir.entryInfoList
  rw [h]
  simp

theorem QDir.entryInfoList_files_isEmpty (root : Node) (d : Path) (sub : Node)
    (h : root.get d = some sub) :
    (QDir.entryInfoList root d false).isEmpty = sub.files.isEmpty := by
  rw [QDir.entryInfoList_files root d sub h]
  cases sub.files <;> rfl

theorem Node.get_lock (root : Node) (d : Path) (name : String) (sub : Node)
    (h : root.get d = some sub) :
    root.get (d ++ [name]) = QHash.value sub.entries name := by
  rw [Node.get_append, h]
  simp only [Option.some_bind, Node.get_cons]
  cases QHash.value sub.entries name <;> simp [Node.get_nil]

/-- A round of the loop for a subfolder that lists a file and has a fresh lock: nothing
happens. -/
theorem LockManager.checkLockedFilesStep_fresh (P : Path) (n : String) (recurse : Bool)
    (tf : Int) (s : LockManager.CheckState) (i : QFileInfo) (sub lock : Node)
    (hdir : i.dir = P) (hname : i.fileName = n)
    (hsub : s.w.root.get (P ++ [n]) = some sub) (hfiles : sub.files ≠ [])
    (hlock : QHash.value sub.entries LockManager.LockedFileName = some lock)
    (hfresh : lock.lastModified ≥ LockManager.staleBefore s.w.now tf) :
    LockManager.checkLockedFilesStep recurse tf s i = s := by
  have hne : (QDir.entryInfoList s.w.root (P ++ [n]) false).isEmpty = false := by
    rw [QDir.entryInfoList_files_isEmpty _ _ _ hsub]
    cases hf : sub.files with
    | nil => exact absurd hf hfiles
    | cons a b => rfl
  have hl : s.w.root.get (P ++ [n] ++ [LockManager.LockedFileName]) = some lock := by
    rw [Node.get_lock _ _ _ _ hsub, hlock]
  unfold LockManager.checkLockedFilesStep
  simp only [QFileInfo.filePath, hdir, hname, QDir.absoluteFilePath, hne, hl]
  simp [hfresh]

/-- The loop over subfolders of `P`, for a subfolder `n` that lists a file and has a fresh
lock: whether or not `n` is met, it is left untouched. -/
theorem LockManager.checkLockedFiles_foldl_fresh (P : Path) (n : String) (recurse : Bool)
    (tf : Int) (sub lock : Node) (now : Int) (hfiles : sub.files ≠ [])
    (hlock : QHash.value sub.entries LockManager.LockedFileName = some lock)
    (hfresh : lock.lastModified ≥ LockManager.staleBefore now tf) (l : List QFileInfo) :
    ∀ s : LockManager.CheckState, (∀ i ∈ l, i.dir = P) →
      s.w.root.get (P ++ [n]) = some sub → s.w.now = now →
      LockManager.Untouched P n s (l.foldl (LockManager.checkLockedFilesStep recurse tf) s) := by
  induction l with
  | nil =>
    intro s _ _ _
    exact LockManager.untouched_refl P n s
  | cons i l ih =>
    intro s hl hsub hnow
    have hi := hl i (List.mem_cons_self _ _)
    have hl2 : ∀ j ∈ l, j.dir = P := fun j hj => hl j (List.mem_cons_of_mem _ hj)
    simp only [List.foldl_cons]
    by_cases hname : i.fileName = n
    · rw [LockManager.checkLockedFilesStep_fresh P n recurse tf s i sub lock hi hname hsub
        hfiles hlock (by rw [hnow]; exact hfresh)]
      exact ih s hl2 hsub hnow
    · have hu := LockManager.checkLockedFilesStep_other P n recurse tf s i hi hname
      exact LockManager.untouched_trans P n _ _ _ hu
        (ih _ hl2 (by rw [hu.root]; exact hsub) (by rw [hu.now]; exact hnow))

/-- A call of `checkLockedFiles` leaves a subfolder that lists a file and has a fresh lock
untouched. -/
theorem LockManager.checkLockedFiles_untouched (store : Path) (w : World) (pfx : Path)
    (backupList : List QFileInfo) (lockedFiles : List (String × Nat)) (recurse : Bool)
    (tf : Int) (n : String) (sub lock : Node)
    (hsub : w.root.get (store ++ pfx ++ [n]) = some sub) (hfiles : sub.files ≠ [])
    (hlock : QHash.value sub.entries LockManager.LockedFileName = some lock)
    (hfresh : lock.lastModified ≥ LockManager.staleBefore w.now tf) :
    LockManager.Untouched (store ++ pfx) n (LockManager.CheckState.mk w backupList lockedFiles)
      (LockManager.checkLockedFiles store w pfx backupList lockedFiles recurse tf) := by
  unfold LockManager.checkLockedFiles
  by_cases hcd : (QDir.cd w.root store pfx).2 = true
  · simp only [hcd, Bool.not_true, Bool.false_eq_true, if_false, QDir.cd_true _ _ _ hcd]
    exact LockManager.checkLockedFiles_foldl_fresh (store ++ pfx) n recurse tf sub lock w.now
      hfiles hlock hfresh _ _ (QDir.entryInfoList_dir _ _ _) hsub rfl
  · simp only [hcd, Bool.not_false, if_true]
    exact LockManager.untouched_refl _ _ _

/-- C1. A backup subfolder that lists at least one file and whose lock file
`___lockfile___.txt` exists with a modification time `>= now - (2000 + touchFrequency)` is
treated by `checkLockedFiles` as owned by somebody else: the value of `lockedFiles` for its
name is what it was, none of the files appended to `backupList` is a file of it, no new
`LockedFile` object has its lock file as path and no new registry item points to such an
object, and the subfolder with its lock file is as it was, neither touched nor removed.
(`-2000 - touchFrequency` is assumed not to overflow a `long`.) -/
theorem LockManager.checkLockedFiles_fresh_lock (store : Path) (w : World) (pfx : Path)
    (backupList : List QFileInfo) (lockedFiles : List (String × Nat)) (recurse : Bool)
    (tf : Int) (n : String) (sub lock : Node)
    (hsub : w.root.get (store ++ pfx ++ [n]) = some sub) (hfiles : sub.files ≠ [])
    (hlock : QHash.value sub.entries LockManager.LockedFileName = some lock)
    (hfresh : lock.lastModified ≥ w.now - (2000 + tf))
    (hlong : inLong (-2000 - tf)) :
    LockManager.Untouched (store ++ pfx) n (LockManager.CheckState.mk w backupList lockedFiles)
      (LockManager.checkLockedFiles store w pfx backupList lockedFiles recurse tf) ∧
    (∃ regs, (LockManager.checkLockedFiles store w pfx backupList lockedFiles recurse
        tf).w.TheLockedFiles = regs ++ w.TheLockedFiles ∧
      ∀ e ∈ regs, ∀ obj, (LockManager.checkLockedFiles store w pfx backupList lockedFiles recurse
        tf).w.heap[e.2]? = some (some obj) →
        obj.file ≠ store ++ pfx ++ [n] ++ [LockManager.LockedFileName]) ∧
    (LockManager.checkLockedFiles store w pfx backupList lockedFiles recurse tf).w.root.get
      (store ++ pfx ++ [n] ++ [LockManager.LockedFileName]) = some lock := by
  have hu := LockManager.checkLockedFiles_untouched store w pfx backupList lockedFiles recurse
    tf n sub lock hsub hfiles hlock (by rw [LockManager.staleBefore_eq _ _ hlong]; exact hfresh)
  refine ⟨hu, LockManager.notClaimed_not_registered _ _ _ _ (LockManager.untouched_notClaimed _ _ _ _ hu), ?_⟩
  rw [Node.get_lock _ _ _ sub (by rw [hu.root]; exact hsub), hlock]

end Fritzing

namespace Fritzing

/-- C1, for the subfolder `held` of the example state, whose lock was written 1000 ms
ago. -/
theorem LockManager.checkLockedFiles_fresh_lock_witness :
    (LockManager.checkLockedFiles ["store"] exampleWorld ["backup"] [] [] false
      LockManager.FastTime).w.root.get
        (["store"] ++ ["backup"] ++ ["held"] ++ [LockManager.LockedFileName]) =
      some (Node.file 9000) :=
  (LockManager.checkLockedFiles_fresh_lock ["store"] exampleWorld ["backup"] [] [] false
    LockManager.FastTime "held"
    (Node.dir 50 [("a.fzz", Node.file 40), ("___lockfile___.txt", Node.file 9000)])
    (Node.file 9000) rfl (List.ne_nil_of_length_pos (by decide)) rfl (by decide)
    (by decide)).2.2

/-! ## Empty subfolders -/

theorem QDir.cd_of_child (root : Node) (store pfx : Path) (n : String) (sub : Node)
    (h : root.get (store ++ pfx ++ [n]) = some sub) :
    QDir.cd root store pfx = (store ++ pfx, true) := by
  unfold QDir.cd
  by_cases h1 : pfx = []
  · simp [h1]
  · simp [h1, QDir.exists_parent root (store ++ pfx) n sub h]

theorem Node.get_child (root : Node) (d : Path) (n : String) (sub : Node)
    (h : root.get (d ++ [n]) = some sub) :
    ∃ pn, root.get d = some pn ∧ QHash.value pn.entries n = some sub := by
  cases hd : root.get d with
  | none => rw [Node.get_append, hd] at h; cases h
  | some pn => exact ⟨pn, rfl, by rw [← Node.get_lock root d n pn hd]; exact h⟩

/-- The listing of the directories of `P` splits at the subfolder `n`; with distinct names
no other item of the listing is called `n`. -/
theorem QDir.entryInfoList_split (root : Node) (P : Path) (n : String) (m : Int)
    (es : List (String × Node)) (hsub : root.get (P ++ [n]) = some (Node.dir m es))
    (hnodup : ((QDir.entryInfoList root P true).map QFileInfo.fileName).Nodup) :
    ∃ l1 l2, QDir.entryInfoList root P true = l1 ++ QFileInfo.mk P n m :: l2 ∧
      (∀ i ∈ l1, i.dir = P ∧ i.fileName ≠ n) ∧ (∀ i ∈ l2, i.dir = P ∧ i.fileName ≠ n) := by
  obtain ⟨pn, hpn, hv⟩ := Node.get_child root P n _ hsub
  have hmem : (n, Node.dir m es) ∈ pn.dirs := by
    unfold Node.dirs
    rw [List.mem_filter]
    exact ⟨QHash.value_mem _ _ _ hv, rfl⟩
  obtain ⟨a, b, hab⟩ := List.append_of_mem hmem
  have hlist : QDir.entryInfoList root P true =
      a.map (fun e => QFileInfo.mk P e.1 e.2.lastModified) ++
        QFileInfo.mk P n m :: b.map (fun e => QFileInfo.mk P e.1 e.2.lastModified) := by
    unfold QDir.entryInfoList
    rw [hpn]
    simp [hab, Node.lastModified]
  have hdir := QDir.entryInfoList_dir root P true
  rw [hlist] at hnodup hdir
  rw [List.map_append, List.map_cons] at hnodup
  have hmid := List.nodup_middle.mp hnodup
  rw [List.nodup_cons, List.mem_append, not_or] at hmid
  refine ⟨_, _, hlist, ?_, ?_⟩
  · intro i hi
    refine ⟨hdir i (List.mem_append_left _ hi), ?_⟩
    intro hn
    have hin := List.mem_map_of_mem QFileInfo.fileName hi
    rw [hn] at hin
    exact hmid.1.1 hin
  · intro i hi
    refine ⟨hdir i (List.mem_append_right _ (List.mem_cons_of_mem _ hi)), ?_⟩
    intro hn
    have hin := List.mem_map_of_mem QFileInfo.fileName hi
    rw [hn] at hin
    exact hmid.1.2 hin

/-- A round of the loop for a subfolder in which no file is found. -/
theorem LockManager.checkLockedFilesStep_empty (P : Path) (n : String) (recurse : Bool)
    (tf : Int) (s : LockManager.CheckState) (i : QFileInfo) (sub : Node)
    (hdir : i.dir = P) (hname : i.fileName = n)
    (hsub : s.w.root.get (P ++ [n]) = some sub) (hfiles : sub.files = [])
    (hrec : recurse = true → LockManager.checkLockedFilesAux sub = false) :
    LockManager.checkLockedFilesStep recurse tf s i =
      if i.lastModified < LockManager.staleBefore s.w.now tf then
        { s with w := FolderUtils.rmdir s.w (P ++ [n]) }
      else s := by
  have he : (QDir.entryInfoList s.w.root (P ++ [n]) false).isEmpty = true := by
    rw [QDir.entryInfoList_files_isEmpty _ _ _ hsub, hfiles]
    rfl
  unfold LockManager.checkLockedFilesStep
  simp only [QFileInfo.filePath, hdir, hname, he, hsub]
  cases recurse
  · simp
  · simp [hrec rfl]

theorem FolderUtils.rmdir_get_self (w : World) (P : Path) (n : String) (m : Int)
    (es : List (String × Node)) (hsub : w.root.get (P ++ [n]) = some (Node.dir m es)) :
    (FolderUtils.rmdir w (P ++ [n])).root.get (P ++ [n]) = none := by
  obtain ⟨pn, hpn, hv⟩ := Node.get_child w.root P n _ hsub
  rw [FolderUtils.rmdir_root, Node.get_modifyAt, hpn]
  cases pn with
  | file t => simp [Node.entries, QHash.value] at hv
  | dir t es2 =>
    simp only [Node.entries] at hv
    simp [Node.rmEntry, hv, Node.get_cons, Node.entries, QHash.value_remove_self]

theorem LockManager.rmdir_notClaimed (P : Path) (n : String) (s : LockManager.CheckState)
    (path : Path) :
    LockManager.NotClaimed P n s { s with w := FolderUtils.rmdir s.w path } := by
  refine ⟨rfl, ⟨[], by simp, by simp⟩, ⟨[], by simp [FolderUtils.rmdir], by simp⟩,
    ⟨[], by simp [FolderUtils.rmdir], by simp⟩,
    ⟨[Call.rmdir path], by simp [FolderUtils.rmdir], ?_⟩⟩
  intro c hc p o h
  rw [List.mem_singleton.mp hc] at h
  cases h

/-- C8. A backup subfolder that lists no files (and, with `recurse` set, in whose nested
directories `checkLockedFilesAux` finds no file) is removed by `checkLockedFiles` when its
modification time is strictly earlier than `now - (2000 + touchFrequency)`, and is left exactly
as it was otherwise; in both cases it is not claimed: `lockedFiles` keeps its value for the
name, nothing of it is appended to `backupList`, no `LockedFile` is made or registered for its
lock file and no lock file is written. (The names in the listing of the backup directory are
distinct, and `-2000 - touchFrequency` is assumed not to overflow a `long`.) -/
theorem LockManager.checkLockedFiles_empty_folder (store : Path) (w : World) (pfx : Path)
    (backupList : List QFileInfo) (lockedFiles : List (String × Nat)) (recurse : Bool)
    (tf : Int) (n : String) (m : Int) (es : List (String × Node))
    (hsub : w.root.get (store ++ pfx ++ [n]) = some (Node.dir m es))
    (hfiles : (Node.dir m es).files = [])
    (hrec : recurse = true → LockManager.checkLockedFilesAux (Node.dir m es) = false)
    (hnodup : ((QDir.entryInfoList w.root (store ++ pfx) true).map QFileInfo.fileName).Nodup)
    (hlong : inLong (-2000 - tf)) :
    (m < w.now - (2000 + tf) →
      (LockManager.checkLockedFiles store w pfx backupList lockedFiles recurse tf).w.root.get
        (store ++ pfx ++ [n]) = none) ∧
    (¬ m < w.now - (2000 + tf) →
      LockManager.Untouched (store ++ pfx) n (LockManager.CheckState.mk w backupList lockedFiles)
        (LockManager.checkLockedFiles store w pfx backupList lockedFiles recurse tf)) ∧
    LockManager.NotClaimed (store ++ pfx) n (LockManager.CheckState.mk w backupList lockedFiles)
      (LockManager.checkLockedFiles store w pfx backupList lockedFiles recurse tf) ∧
    (∃ regs, (LockManager.checkLockedFiles store w pfx backupList lockedFiles recurse
        tf).w.TheLockedFiles = regs ++ w.TheLockedFiles ∧
      ∀ e ∈ regs, ∀ obj, (LockManager.checkLockedFiles store w pfx backupList lockedFiles recurse
        tf).w.heap[e.2]? = some (some obj) →
        obj.file ≠ store ++ pfx ++ [n] ++ [LockManager.LockedFileName]) := by
  obtain ⟨l1, l2, hl, h1, h2⟩ := QDir.entryInfoList_split w.root (store ++ pfx) n m es hsub hnodup
  have hcheck : LockManager.checkLockedFiles store w pfx backupList lockedFiles recurse tf =
      l2.foldl (LockManager.checkLockedFilesStep recurse tf)
        (LockManager.checkLockedFilesStep recurse tf
          (l1.foldl (LockManager.checkLockedFilesStep recurse tf)
            (LockManager.CheckState.mk w backupList lockedFiles))
          (QFileInfo.mk (store ++ pfx) n m)) := by
    unfold LockManager.checkLockedFiles
    simp [QDir.cd_of_child w.root store pfx n _ hsub, hl]
  have u01 := LockManager.checkLockedFiles_foldl_other (store ++ pfx) n recurse tf l1
    (LockManager.CheckState.mk w backupList lockedFiles) h1
  obtain ⟨s1, hs1⟩ : ∃ s1, l1.foldl (LockManager.checkLockedFilesStep recurse tf)
    (LockManager.CheckState.mk w backupList lockedFiles) = s1 := ⟨_, rfl⟩
  rw [hs1] at hcheck u01
  have hsub1 : s1.w.root.get (store ++ pfx ++ [n]) = some (Node.dir m es) := by
    rw [u01.root]; exact hsub
  have hstep := LockManager.checkLockedFilesStep_empty (store ++ pfx) n recurse tf s1
    (QFileInfo.mk (store ++ pfx) n m) (Node.dir m es) rfl rfl hsub1 hfiles hrec
  rw [u01.now, LockManager.staleBefore_eq _ _ hlong] at hstep
  simp only at hstep
  by_cases hold : m < w.now - (2000 + tf)
  · rw [if_pos hold] at hstep
    rw [hstep] at hcheck
    have u23 := LockManager.checkLockedFiles_foldl_other (store ++ pfx) n recurse tf l2
      { s1 with w := FolderUtils.rmdir s1.w (store ++ pfx ++ [n]) } h2
    rw [← hcheck] at u23
    have hnc := LockManager.notClaimed_trans _ _ _ _ _
      (LockManager.notClaimed_trans _ _ _ _ _ (LockManager.untouched_notClaimed _ _ _ _ u01)
        (LockManager.rmdir_notClaimed (store ++ pfx) n s1 (store ++ pfx ++ [n])))
      (LockManager.untouched_notClaimed _ _ _ _ u23)
    refine ⟨fun _ => ?_, fun h => absurd hold h, hnc, LockManager.notClaimed_not_registered _ _ _ _ hnc⟩
    rw [u23.root]
    exact FolderUtils.rmdir_get_self s1.w (store ++ pfx) n m es hsub1
  · rw [if_neg hold] at hstep
    rw [hstep] at hcheck
    have u23 := LockManager.checkLockedFiles_foldl_other (store ++ pfx) n recurse tf l2 s1 h2
    rw [← hcheck] at u23
    have hu := LockManager.untouched_trans _ _ _ _ _ u01 u23
    exact ⟨fun h => absurd h hold, fun _ => hu, LockManager.untouched_notClaimed _ _ _ _ hu,
      LockManager.notClaimed_not_registered _ _ _ _ (LockManager.untouched_notClaimed _ _ _ _ hu)⟩

end Fritzing

namespace Fritzing

/-- C8, for the subfolder `oldEmpty` of the example state, last modified 9930 ms ago. -/
theorem LockManager.checkLockedFiles_empty_folder_witness :
    (10000 - (2000 + LockManager.FastTime) > (70 : Int)) ∧
    (LockManager.checkLockedFiles ["store"] exampleWorld ["backup"] [] [] true
      LockManager.FastTime).w.root.get (["store"] ++ ["backup"] ++ ["oldEmpty"]) = none :=
  ⟨by decide,
   (LockManager.checkLockedFiles_empty_folder ["store"] exampleWorld ["backup"] [] [] true
    LockManager.FastTime "oldEmpty" 70 [] rfl rfl (fun _ => rfl) (by decide) (by decide)).1
    (by decide)⟩

/-! ## Abandoned subfolders -/

/-- A round of the loop for a subfolder in which a file is found and whose lock is
missing or stale: the subfolder is claimed. -/
theorem LockManager.checkLockedFilesStep_claim (P : Path) (n : String) (recurse : Bool)
    (tf : Int) (s : LockManager.CheckState) (i : QFileInfo) (sub : Node)
    (hdir : i.dir = P) (hname : i.fileName = n)
    (hsub : s.w.root.get (P ++ [n]) = some sub)
    (hfound : sub.files ≠ [] ∨ (recurse = true ∧ LockManager.checkLockedFilesAux sub = true))
    (hstale : ∀ lock, QHash.value sub.entries LockManager.LockedFileName = some lock →
      lock.lastModified < LockManager.staleBefore s.w.now tf) :
    LockManager.checkLockedFilesStep recurse tf s i =
      { w := (LockManager.makeLockedFile s.w (P ++ [n] ++ [LockManager.LockedFileName]) tf).1
        lockedFiles := QHash.insert s.lockedFiles n s.w.heap.length
        backupList := s.backupList ++ QDir.entryInfoList s.w.root (P ++ [n]) false } := by
  have he : (QDir.entryInfoList s.w.root (P ++ [n]) false).isEmpty = sub.files.isEmpty :=
    QDir.entryInfoList_files_isEmpty _ _ _ hsub
  have hl : s.w.root.get (P ++ [n] ++ [LockManager.LockedFileName]) =
      QHash.value sub.entries LockManager.LockedFileName := Node.get_lock _ _ _ _ hsub
  have hnot : (match QHash.value sub.entries LockManager.LockedFileName with
      | some lock => decide (lock.lastModified ≥ LockManager.staleBefore s.w.now tf)
      | none => false) = false := by
    cases hv : QHash.value sub.entries LockManager.LockedFileName with
    | none => rfl
    | some lock =>
      have := hstale lock hv
      simp only [ge_iff_le, decide_eq_false_iff_not, not_le]
      exact this
  unfold LockManager.checkLockedFilesStep
  simp only [QFileInfo.filePath, hdir, hname, QDir.absoluteFilePath, he, hl, hsub, hnot,
    LockManager.makeLockedFile_snd]
  rcases hfound with hf | ⟨hr, ha⟩
  · have hf2 : sub.files.isEmpty = false := by
      cases hfs : sub.files with
      | nil => exact absurd hfs hf
      | cons a b => rfl
    simp [hf2]
  · subst hr
    cases hfs : sub.files.isEmpty <;> simp [ha]

theorem Node.touchEntry_value (name : String) (now m : Int) (es : List (String × Node))
    (h : ∀ a b, QHash.value es name ≠ some (Node.dir a b)) :
    QHash.value (Node.touchEntry name now (Node.dir m es)).entries name =
      some (Node.file now) := by
  unfold Node.touchEntry
  cases hv : QHash.value es name with
  | none => simp [Node.entries, QHash.value_append, hv, QHash.value]
  | some x =>
    cases x with
    | file t => simp [Node.entries, Node.value_updateEntry_self, hv]
    | dir a b => exact absurd hv (h a b)

end Fritzing

namespace Fritzing

theorem Node.touchEntry_of_dir (name : String) (now m a : Int) (es b : List (String × Node))
    (h : QHash.value es name = some (Node.dir a b)) :
    Node.touchEntry name now (Node.dir m es) = Node.dir m es := by
  simp only [Node.touchEntry, h]

/-- C2, as it holds. A backup subfolder that lists at least one file and at whose lock
path `___lockfile___.txt` either nothing stands or something (a file or a directory) with a
modification time `< now - (2000 + touchFrequency)` is taken over by `checkLockedFiles`:
`lockedFiles` gets under the subfolder's name a new `LockedFile` with the path
`<subfolder>/___lockfile___.txt` and the frequency `touchFrequency` (which is also in the
registry), `touch` is called on that lock file, and the files listed in the subfolder are
appended to `backupList` in listing order, after its previous contents, with no other file of
this subfolder before or after them. The touch writes the lock file, at the current time,
when no directory stands at the lock path; when one does, the file cannot be opened and the
directory stays as it is. (The names in the listing of the backup directory are distinct, and
`-2000 - touchFrequency` is assumed not to overflow a `long`.) -/
theorem LockManager.checkLockedFiles_abandoned (store : Path) (w : World) (pfx : Path)
    (backupList : List QFileInfo) (lockedFiles : List (String × Nat)) (recurse : Bool)
    (tf : Int) (n : String) (m : Int) (es : List (String × Node))
    (hsub : w.root.get (store ++ pfx ++ [n]) = some (Node.dir m es))
    (hfiles : (Node.dir m es).files ≠ [])
    (hlock : ∀ lock, QHash.value es LockManager.LockedFileName = some lock →
      lock.lastModified < w.now - (2000 + tf))
    (hnodup : ((QDir.entryInfoList w.root (store ++ pfx) true).map QFileInfo.fileName).Nodup)
    (hlong : inLong (-2000 - tf)) :
    ∃ p, w.heap.length ≤ p ∧
      QHash.value (LockManager.checkLockedFiles store w pfx backupList lockedFiles recurse
        tf).lockedFiles n = some p ∧
      (LockManager.checkLockedFiles store w pfx backupList lockedFiles recurse tf).w.heap[p]? =
        some (some (LockedFile.mk (store ++ pfx ++ [n] ++ [LockManager.LockedFileName]) tf)) ∧
      (tf, p) ∈ (LockManager.checkLockedFiles store w pfx backupList lockedFiles recurse
        tf).w.TheLockedFiles ∧
      (∃ opened, Call.touch p (store ++ pfx ++ [n] ++ [LockManager.LockedFileName]) opened ∈
        (LockManager.checkLockedFiles store w pfx backupList lockedFiles recurse tf).w.calls) ∧
      ((∀ a b, QHash.value es LockManager.LockedFileName ≠ some (Node.dir a b)) →
        Call.touch p (store ++ pfx ++ [n] ++ [LockManager.LockedFileName]) true ∈
          (LockManager.checkLockedFiles store w pfx backupList lockedFiles recurse tf).w.calls ∧
        (LockManager.checkLockedFiles store w pfx backupList lockedFiles recurse tf).w.root.get
          (store ++ pfx ++ [n] ++ [LockManager.LockedFileName]) = some (Node.file w.now)) ∧
      (∀ a b, QHash.value es LockManager.LockedFileName = some (Node.dir a b) →
        Call.touch p (store ++ pfx ++ [n] ++ [LockManager.LockedFileName]) false ∈
          (LockManager.checkLockedFiles store w pfx backupList lockedFiles recurse tf).w.calls ∧
        (LockManager.checkLockedFiles store w pfx backupList lockedFiles recurse tf).w.root.get
          (store ++ pfx ++ [n] ++ [LockManager.LockedFileName]) = some (Node.dir a b)) ∧
      ∃ before after,
        (LockManager.checkLockedFiles store w pfx backupList lockedFiles recurse
          tf).backupList =
          backupList ++ before ++ QDir.entryInfoList w.root (store ++ pfx ++ [n]) false ++
            after ∧
        (∀ i ∈ before, i.dir ≠ store ++ pfx ++ [n]) ∧
        (∀ i ∈ after, i.dir ≠ store ++ pfx ++ [n]) := by
  obtain ⟨l1, l2, hl, h1, h2⟩ := QDir.entryInfoList_split w.root (store ++ pfx) n m es hsub hnodup
  have hcheck : LockManager.checkLockedFiles store w pfx backupList lockedFiles recurse tf =
      l2.foldl (LockManager.checkLockedFilesStep recurse tf)
        (LockManager.checkLockedFilesStep recurse tf
          (l1.foldl (LockManager.checkLockedFilesStep recurse tf)
            (LockManager.CheckState.mk w backupList lockedFiles))
          (QFileInfo.mk (store ++ pfx) n m)) := by
    unfold LockManager.checkLockedFiles
    simp [QDir.cd_of_child w.root store pfx n _ hsub, hl]
  have u01 := LockManager.checkLockedFiles_foldl_other (store ++ pfx) n recurse tf l1
    (LockManager.CheckState.mk w backupList lockedFiles) h1
  obtain ⟨s1, hs1⟩ : ∃ s1, l1.foldl (LockManager.checkLockedFilesStep recurse tf)
    (LockManager.CheckState.mk w backupList lockedFiles) = s1 := ⟨_, rfl⟩
  rw [hs1] at hcheck u01
  have hsub1 : s1.w.root.get (store ++ pfx ++ [n]) = some (Node.dir m es) := by
    rw [u01.root]; exact hsub
  have hnow1 : s1.w.now = w.now := u01.now
  have hstep := LockManager.checkLockedFilesStep_claim (store ++ pfx) n recurse tf s1
    (QFileInfo.mk (store ++ pfx) n m) (Node.dir m es) rfl rfl hsub1 (Or.inl hfiles)
    (by
      intro lock hv
      rw [hnow1, LockManager.staleBefore_eq _ _ hlong]
      exact hlock lock hv)
  rw [hstep] at hcheck
  have u23 := LockManager.checkLockedFiles_foldl_other (store ++ pfx) n recurse tf l2
    (LockManager.CheckState.mk
      (LockManager.makeLockedFile s1.w (store ++ pfx ++ [n] ++ [LockManager.LockedFileName]) tf).1
      (s1.backupList ++ QDir.entryInfoList s1.w.root (store ++ pfx ++ [n]) false)
      (QHash.insert s1.lockedFiles n s1.w.heap.length)) h2
  rw [← hcheck] at u23
  obtain ⟨a1, ha1, ha1p⟩ := u01.backupList
  obtain ⟨o1, ho1, _⟩ := u01.heap
  obtain ⟨a3, ha3, ha3p⟩ := u23.backupList
  obtain ⟨o3, ho3, _⟩ := u23.heap
  obtain ⟨r3, hr3, _⟩ := u23.registry
  obtain ⟨c3, hc3, _⟩ := u23.calls
  simp only [LockManager.makeLockedFile_heap, LockManager.makeLockedFile_registry,
    LockManager.makeLockedFile_calls] at ho3 hr3 hc3
  have hroot2 := u23.root
  simp only [LockManager.makeLockedFile_root, QFile.rewrite_eq, Node.get_modifyAt_self,
    hsub1, Option.map_some'] at hroot2
  have hcall : Call.touch s1.w.heap.length
      (store ++ pfx ++ [n] ++ [LockManager.LockedFileName])
      (QFile.canOpen s1.w.root (store ++ pfx ++ [n] ++ [LockManager.LockedFileName])) ∈
      (LockManager.checkLockedFiles store w pfx backupList lockedFiles recurse tf).w.calls := by
    rw [hc3]; simp
  refine ⟨s1.w.heap.length, ?_, ?_, ?_, ?_, ⟨_, hcall⟩, ?_, ?_, a1, a3, ?_, ha1p, ha3p⟩
  · rw [ho1]; simp
  · rw [u23.lockedFiles]; exact QHash.value_insert_self _ _ _
  · rw [ho3, List.append_assoc, List.getElem?_append_right (le_refl _)]
    simp
  · rw [hr3]; simp
  · intro hnotdir
    have hopen : QFile.canOpen s1.w.root
        (store ++ pfx ++ [n] ++ [LockManager.LockedFileName]) = true := by
      rw [QFile.canOpen_eq, hsub1]
      cases hv : QHash.value es LockManager.LockedFileName with
      | none => simp only [hv]
      | some x =>
        cases x with
        | file t => simp only [hv]
        | dir a b => exact absurd hv (hnotdir a b)
    rw [hopen] at hcall
    refine ⟨hcall, ?_⟩
    rw [Node.get_lock _ _ _ _ hroot2, hnow1]
    exact Node.touchEntry_value _ _ _ _ hnotdir
  · intro a b hdir
    have hopen : QFile.canOpen s1.w.root
        (store ++ pfx ++ [n] ++ [LockManager.LockedFileName]) = false := by
      rw [QFile.canOpen_eq, hsub1]
      simp only [hdir]
    rw [hopen] at hcall
    refine ⟨hcall, ?_⟩
    rw [Node.touchEntry_of_dir _ _ _ _ _ _ hdir] at hroot2
    rw [Node.get_lock _ _ _ _ hroot2]
    exact hdir
  · rw [ha3]
    simp only
    rw [ha1, QDir.entryInfoList_files _ _ _ hsub1, QDir.entryInfoList_files _ _ _ hsub]

/-- C2, for the subfolder `crashed` of the example state, whose lock file was written
9900 ms ago: it is claimed and its lock file is written anew. -/
theorem LockManager.checkLockedFiles_abandoned_witness :
    ∃ p, QHash.value (LockManager.checkLockedFiles ["store"] exampleWorld ["backup"] [] [] false
        LockManager.FastTime).lockedFiles "crashed" = some p ∧
      (LockManager.checkLockedFiles ["store"] exampleWorld ["backup"] [] [] false
        LockManager.FastTime).w.root.get
          (["store"] ++ ["backup"] ++ ["crashed"] ++ [LockManager.LockedFileName]) =
        some (Node.file 10000) :=
  have hv : QHash.value
      [("b.fzz", Node.file 41), ("c.fzz", Node.file 42), ("___lockfile___.txt", Node.file 100)]
      LockManager.LockedFileName = some (Node.file 100) := rfl
  have h := LockManager.checkLockedFiles_abandoned ["store"] exampleWorld ["backup"] [] []
    false LockManager.FastTime "crashed" 60
    [("b.fzz", Node.file 41), ("c.fzz", Node.file 42), ("___lockfile___.txt", Node.file 100)]
    rfl (List.ne_nil_of_length_pos (by decide))
    (fun lock hl => by
      rw [hv] at hl
      injection hl with hl
      rw [← hl]
      decide)
    (by decide) (by decide)
  h.elim (fun p hp => ⟨p, hp.2.1,
    (hp.2.2.2.2.2.1 (fun a b hd => by rw [hv] at hd; cases hd)).2⟩)

set_option maxRecDepth 100000 in
/-- C2 as stated fails where a directory stands at the lock path. The subfolder `staleDir`
of the example state lists the file `a.fzz` and its lock path was last modified 9900 ms ago,
before `now - (2000 + touchFrequency)`: it is claimed, but the touch cannot open the lock
file and the directory is left as it was, so the lock is not touched. The subfolder
`freshDir` lists the file `b.fzz` and has no lock file, only a directory of that name
modified 1000 ms ago: it is not claimed at all. -/
theorem LockManager.checkLockedFiles_abandoned_dir_lock :
    exampleDirLockWorld.root.get ["store", "backup", "staleDir"] =
      some (Node.dir 60 [("a.fzz", Node.file 41), ("___lockfile___.txt", Node.dir 100 [])]) ∧
    (100 : Int) < exampleDirLockWorld.now - (2000 + LockManager.FastTime) ∧
    (LockManager.checkLockedFiles ["store"] exampleDirLockWorld ["backup"] [] [] false
      LockManager.FastTime).lockedFiles = [("staleDir", 0)] ∧
    (LockManager.checkLockedFiles ["store"] exampleDirLockWorld ["backup"] [] [] false
      LockManager.FastTime).w.calls =
        [Call.touch 0 ["store", "backup", "staleDir", "___lockfile___.txt"] false] ∧
    (LockManager.checkLockedFiles ["store"] exampleDirLockWorld ["backup"] [] [] false
      LockManager.FastTime).w.root.get ["store", "backup", "staleDir", "___lockfile___.txt"] =
        some (Node.dir 100 []) ∧
    exampleDirLockWorld.root.get ["store", "backup", "freshDir"] =
      some (Node.dir 61 [("b.fzz", Node.file 42), ("___lockfile___.txt", Node.dir 9000 [])]) ∧
    QHash.value (LockManager.checkLockedFiles ["store"] exampleDirLockWorld ["backup"] [] []
      false LockManager.FastTime).lockedFiles "freshDir" = none ∧
    (LockManager.checkLockedFiles ["store"] exampleDirLockWorld ["backup"] [] [] false
      LockManager.FastTime).backupList =
        [QFileInfo.mk ["store", "backup", "staleDir"] "a.fzz" 41] :=
  ⟨rfl, by decide, rfl, rfl, rfl, rfl, rfl, rfl⟩

end Fritzing

namespace Fritzing

/-! ## A claimed subfolder is not claimed again -/

/-- The three outcomes of a round of the loop of `checkLockedFiles`. -/
theorem LockManager.checkLockedFilesStep_cases (recurse : Bool) (tf : Int)
    (s : LockManager.CheckState) (i : QFileInfo) :
    LockManager.checkLockedFilesStep recurse tf s i = s ∨
    ((QDir.entryInfoList s.w.root i.filePath false).isEmpty = true ∧
      LockManager.checkLockedFilesStep recurse tf s i =
        { s with w := FolderUtils.rmdir s.w i.filePath }) ∨
    LockManager.checkLockedFilesStep recurse tf s i =
      { w := (LockManager.makeLockedFile s.w (i.filePath ++ [LockManager.LockedFileName]) tf).1
        lockedFiles := QHash.insert s.lockedFiles i.fileName s.w.heap.length
        backupList := s.backupList ++ QDir.entryInfoList s.w.root i.filePath false } := by
  unfold LockManager.checkLockedFilesStep
  simp only [QDir.absoluteFilePath, LockManager.makeLockedFile_snd]
  split_ifs
  all_goals first
    | (left; rfl)
    | (right; right; rfl)
    | (right; left; refine ⟨?_, rfl⟩; simp_all)

theorem QFile.rewrite_get (root : Node) (now : Int) (d : Path) (name : String)
    (h : QFile.canOpen root (d ++ [name]) = true) :
    (QFile.rewrite root now (d ++ [name])).get (d ++ [name]) = some (Node.file now) := by
  rw [QFile.canOpen_eq] at h
  rw [QFile.rewrite_eq, Node.get_modifyAt]
  cases hd : root.get d with
  | none => rw [hd] at h; cases h
  | some x =>
    cases x with
    | file t => rw [hd] at h; cases h
    | dir m es =>
      rw [hd] at h
      have hnotdir : ∀ a b, QHash.value es name ≠ some (Node.dir a b) := by
        intro a b hv
        simp [hv] at h
      simp only [Option.some_bind, Node.get_cons, Node.touchEntry_value name now m es hnotdir,
        Node.get_nil]

theorem QFile.canOpen_of_file (root : Node) (d : Path) (name : String) (t : Int)
    (h : root.get (d ++ [name]) = some (Node.file t)) :
    QFile.canOpen root (d ++ [name]) = true := by
  obtain ⟨pn, hpn, hv⟩ := Node.get_child root d name _ h
  rw [QFile.canOpen_eq, hpn]
  cases pn with
  | file a => simp [Node.entries, QHash.value] at hv
  | dir a es =>
    simp only [Node.entries] at hv
    simp [hv]

theorem QDir.entryInfoList_of_file (root : Node) (d : Path) (name : String) (t : Int)
    (h : root.get (d ++ [name]) = some (Node.file t)) :
    ∃ sub, root.get d = some sub ∧ QHash.value sub.entries name = some (Node.file t) ∧
      sub.files ≠ [] := by
  obtain ⟨pn, hpn, hv⟩ := Node.get_child root d name _ h
  refine ⟨pn, hpn, hv, ?_⟩
  have hmem : (name, Node.file t) ∈ pn.files := by
    unfold Node.files
    rw [List.mem_filter]
    exact ⟨QHash.value_mem _ _ _ hv, rfl⟩
  exact List.ne_nil_of_mem hmem

/-- A round of the loop keeps this true: when the lock file of the subfolder `n` has been
touched with success since the call began, it is a file written at the time of the call. -/
theorem LockManager.checkLockedFilesStep_claimed (P : Path) (n : String) (recurse : Bool)
    (tf : Int) (t0 : Int) (c0 : List Call) (s : LockManager.CheckState) (i : QFileInfo)
    (hdir : i.dir = P) (hnow : s.w.now = t0)
    (hinv : ∃ cs, s.w.calls = c0 ++ cs ∧
      ((∃ p, Call.touch p (P ++ [n] ++ [LockManager.LockedFileName]) true ∈ cs) →
        s.w.root.get (P ++ [n] ++ [LockManager.LockedFileName]) = some (Node.file t0))) :
    (LockManager.checkLockedFilesStep recurse tf s i).w.now = t0 ∧
    ∃ cs, (LockManager.checkLockedFilesStep recurse tf s i).w.calls = c0 ++ cs ∧
      ((∃ p, Call.touch p (P ++ [n] ++ [LockManager.LockedFileName]) true ∈ cs) →
        (LockManager.checkLockedFilesStep recurse tf s i).w.root.get
          (P ++ [n] ++ [LockManager.LockedFileName]) = some (Node.file t0)) := by
  obtain ⟨cs, hcs, himp⟩ := hinv
  by_cases hname : i.fileName = n
  · have hpath : i.filePath = P ++ [n] := by rw [QFileInfo.filePath, hdir, hname]
    rcases LockManager.checkLockedFilesStep_cases recurse tf s i with h | ⟨he, h⟩ | h
    · rw [h]
      exact ⟨hnow, cs, hcs, himp⟩
    · rw [h, hpath]
      rw [hpath] at he
      refine ⟨hnow, cs ++ [Call.rmdir (P ++ [n])], ?_, ?_⟩
      · simp [FolderUtils.rmdir, hcs]
      · rintro ⟨p, hp⟩
        rcases List.mem_append.mp hp with hp | hp
        · obtain ⟨sub, hsub, _, hfiles⟩ :=
            QDir.entryInfoList_of_file _ _ _ _ (himp ⟨p, hp⟩)
          rw [QDir.entryInfoList_files_isEmpty _ _ _ hsub] at he
          exact absurd (List.isEmpty_iff.mp he) hfiles
        · rw [List.mem_singleton] at hp
          cases hp
    · rw [h, hpath]
      refine ⟨by simp only [LockManager.makeLockedFile_now]; exact hnow,
        cs ++ [Call.touch s.w.heap.length (P ++ [n] ++ [LockManager.LockedFileName])
          (QFile.canOpen s.w.root (P ++ [n] ++ [LockManager.LockedFileName]))], ?_, ?_⟩
      · simp [LockManager.makeLockedFile_calls, hcs]
      · rintro ⟨p, hp⟩
        have hopen : QFile.canOpen s.w.root (P ++ [n] ++ [LockManager.LockedFileName]) =
            true := by
          rcases List.mem_append.mp hp with hp | hp
          · exact QFile.canOpen_of_file _ _ _ _ (himp ⟨p, hp⟩)
          · rw [List.mem_singleton] at hp
            injection hp with _ _ h3
            exact h3.symm
        simp only [LockManager.makeLockedFile_root]
        rw [QFile.rewrite_get _ _ _ _ hopen, hnow]
  · have hu := LockManager.checkLockedFilesStep_other P n recurse tf s i hdir hname
    obtain ⟨c, hc, hcp⟩ := hu.calls
    refine ⟨hu.now.trans hnow, cs ++ c, by rw [hc, hcs, List.append_assoc], ?_⟩
    rintro ⟨p, hp⟩
    rw [Node.get_append, hu.root, ← Node.get_append]
    rcases List.mem_append.mp hp with hp | hp
    · exact himp ⟨p, hp⟩
    · exact absurd rfl ((hcp _ hp).2 p true)

theorem LockManager.checkLockedFiles_foldl_claimed (P : Path) (n : String) (recurse : Bool)
    (tf : Int) (t0 : Int) (c0 : List Call) (l : List QFileInfo) :
    ∀ s : LockManager.CheckState, (∀ i ∈ l, i.dir = P) → s.w.now = t0 →
      (∃ cs, s.w.calls = c0 ++ cs ∧
        ((∃ p, Call.touch p (P ++ [n] ++ [LockManager.LockedFileName]) true ∈ cs) →
          s.w.root.get (P ++ [n] ++ [LockManager.LockedFileName]) = some (Node.file t0))) →
      ∃ cs, (l.foldl (LockManager.checkLockedFilesStep recurse tf) s).w.calls = c0 ++ cs ∧
        ((∃ p, Call.touch p (P ++ [n] ++ [LockManager.LockedFileName]) true ∈ cs) →
          (l.foldl (LockManager.checkLockedFilesStep recurse tf) s).w.root.get
            (P ++ [n] ++ [LockManager.LockedFileName]) = some (Node.file t0)) := by
  induction l with
  | nil =>
    intro s _ _ h
    exact h
  | cons i l ih =>
    intro s hl hnow hinv
    obtain ⟨h1, h2⟩ := LockManager.checkLockedFilesStep_claimed P n recurse tf t0 c0 s i
      (hl i (List.mem_cons_self _ _)) hnow hinv
    exact ih _ (fun j hj => hl j (List.mem_cons_of_mem _ hj)) h1 h2

/-- C3. Let a call of `checkLockedFiles` at the time `t0` claim a subfolder, its touch
of the lock file succeeding. Then a call with the same prefix and frequency at a time `t1` with
`t1 - t0 <= 2000 + touchFrequency`, in a state in which that subfolder is as the first call
left it, does not claim the subfolder: `lockedFiles` keeps its value for the name, none of the
files appended to `backupList` is a file of it, no `LockedFile` is made or registered for its
lock file, and the subfolder is left as it is. (`-2000 - touchFrequency` is assumed not to
overflow a `long`.) -/
theorem LockManager.checkLockedFiles_no_second_claim (store : Path) (w0 : World) (pfx : Path)
    (backupList : List QFileInfo) (lockedFiles : List (String × Nat)) (recurse : Bool)
    (tf : Int) (n : String) (w1 : World) (backupList1 : List QFileInfo)
    (lockedFiles1 : List (String × Nat)) (recurse1 : Bool)
    (hclaim : ∃ p cs,
      (LockManager.checkLockedFiles store w0 pfx backupList lockedFiles recurse tf).w.calls =
        w0.calls ++ cs ∧
      Call.touch p (store ++ pfx ++ [n] ++ [LockManager.LockedFileName]) true ∈ cs)
    (hsame : w1.root.get (store ++ pfx ++ [n]) =
      (LockManager.checkLockedFiles store w0 pfx backupList lockedFiles recurse tf).w.root.get
        (store ++ pfx ++ [n]))
    (hlater : w1.now - w0.now ≤ 2000 + tf)
    (hlong : inLong (-2000 - tf)) :
    LockManager.Untouched (store ++ pfx) n
      (LockManager.CheckState.mk w1 backupList1 lockedFiles1)
      (LockManager.checkLockedFiles store w1 pfx backupList1 lockedFiles1 recurse1 tf) ∧
    (∃ regs, (LockManager.checkLockedFiles store w1 pfx backupList1 lockedFiles1 recurse1
        tf).w.TheLockedFiles = regs ++ w1.TheLockedFiles ∧
      ∀ e ∈ regs, ∀ obj, (LockManager.checkLockedFiles store w1 pfx backupList1 lockedFiles1
        recurse1 tf).w.heap[e.2]? = some (some obj) →
        obj.file ≠ store ++ pfx ++ [n] ++ [LockManager.LockedFileName]) := by
  obtain ⟨p, cs, hcalls, hp⟩ := hclaim
  have hfile : (LockManager.checkLockedFiles store w0 pfx backupList lockedFiles recurse
      tf).w.root.get (store ++ pfx ++ [n] ++ [LockManager.LockedFileName]) =
      some (Node.file w0.now) := by
    by_cases hcd : (QDir.cd w0.root store pfx).2 = true
    · have hfold := LockManager.checkLockedFiles_foldl_claimed (store ++ pfx) n recurse tf
        w0.now w0.calls (QDir.entryInfoList w0.root (store ++ pfx) true)
        (LockManager.CheckState.mk w0 backupList lockedFiles) (QDir.entryInfoList_dir _ _ _) rfl
        ⟨[], by simp, by simp⟩
      have hunf : LockManager.checkLockedFiles store w0 pfx backupList lockedFiles recurse tf =
          (QDir.entryInfoList w0.root (store ++ pfx) true).foldl
            (LockManager.checkLockedFilesStep recurse tf)
            (LockManager.CheckState.mk w0 backupList lockedFiles) := by
        unfold LockManager.checkLockedFiles
        simp [hcd, QDir.cd_true _ _ _ hcd]
      rw [← hunf] at hfold
      obtain ⟨cs2, hcs2, himp⟩ := hfold
      have hcseq : cs2 = cs := List.append_cancel_left (hcs2.symm.trans hcalls)
      rw [hcseq] at himp
      exact himp ⟨p, hp⟩
    · have hunf : LockManager.checkLockedFiles store w0 pfx backupList lockedFiles recurse tf =
          LockManager.CheckState.mk w0 backupList lockedFiles := by
        unfold LockManager.checkLockedFiles
        simp [hcd]
      rw [hunf] at hcalls
      have hnil : cs = [] := by
        have := congrArg List.length hcalls
        simp at this
        exact this
      rw [hnil] at hp
      cases hp
  obtain ⟨sub, hsub, hv, hfiles⟩ := QDir.entryInfoList_of_file _ _ _ _ hfile
  have hu := LockManager.checkLockedFiles_untouched store w1 pfx backupList1 lockedFiles1
    recurse1 tf n sub (Node.file w0.now) (hsame.trans hsub) hfiles hv
    (by
      rw [LockManager.staleBefore_eq _ _ hlong]
      simp only [Node.lastModified]
      omega)
  exact ⟨hu, LockManager.notClaimed_not_registered _ _ _ _ (LockManager.untouched_notClaimed _ _ _ _ hu)⟩

set_option maxRecDepth 100000 in
/-- C3, for the subfolder `crashed` of the example state: claimed at 10000, not claimed
again at 13000. -/
theorem LockManager.checkLockedFiles_no_second_claim_witness :
    QHash.value (LockManager.checkLockedFiles ["store"] exampleLater ["backup"] [] [] false
      LockManager.FastTime).lockedFiles "crashed" = none :=
  (LockManager.checkLockedFiles_no_second_claim ["store"] exampleWorld ["backup"] [] [] false
    LockManager.FastTime "crashed" exampleLater [] [] false
    ⟨0, [Call.touch 0 ["store", "backup", "crashed", "___lockfile___.txt"] true,
      Call.rmdir ["store", "backup", "oldEmpty"]], rfl, List.mem_cons_self _ _⟩
    rfl (by decide) (by decide)).1.lockedFiles

end Fritzing

namespace Fritzing

/-! ## The search in nested directories -/

/-- The loop of `checkLockedFilesAux` returns true as soon as one entry is a directory
that lists a file or in which the search succeeds. -/
theorem LockManager.checkLockedFilesAuxLoop_of_mem (es : List (String × Node)) (k : String)
    (m : Int) (sub : List (String × Node)) (hmem : (k, Node.dir m sub) ∈ es)
    (h : (Node.dir m sub).files ≠ [] ∨ LockManager.checkLockedFilesAux (Node.dir m sub) = true) :
    LockManager.checkLockedFilesAuxLoop es = true := by
  induction es with
  | nil => cases hmem
  | cons e es ih =>
    obtain ⟨k2, c⟩ := e
    cases c with
    | file t =>
      rw [LockManager.checkLockedFilesAuxLoop]
      rcases List.mem_cons.mp hmem with h1 | h1
      · cases h1
      · exact ih h1
    | dir m2 sub2 =>
      rw [LockManager.checkLockedFilesAuxLoop]
      rcases List.mem_cons.mp hmem with h1 | h1
      · injection h1 with _ h3
        injection h3 with h4 h5
        subst h4; subst h5
        rcases h with h | h
        · have : (Node.dir m sub).files.isEmpty = false := by
            cases hf : (Node.dir m sub).files with
            | nil => exact absurd hf h
            | cons a b => rfl
          simp [this]
        · simp [h]
      · simp [ih h1]

/-- A file in a directory strictly below `parent` makes `checkLockedFilesAux` return
true. -/
theorem LockManager.checkLockedFilesAux_of_get (p : Path) :
    ∀ (parent d : Node), p ≠ [] → parent.get p = some d → d.files ≠ [] →
      LockManager.checkLockedFilesAux parent = true := by
  induction p with
  | nil => intro _ _ h; exact absurd rfl h
  | cons c p ih =>
    intro parent d _ hget hfiles
    rw [Node.get_cons] at hget
    cases hv : QHash.value parent.entries c with
    | none => rw [hv] at hget; cases hget
    | some child =>
      rw [hv] at hget
      simp only [Option.some_bind] at hget
      cases parent with
      | file t => simp [Node.entries, QHash.value] at hv
      | dir t es =>
        simp only [Node.entries] at hv
        have hmem := QHash.value_mem _ _ _ hv
        rw [LockManager.checkLockedFilesAux]
        by_cases hp : p = []
        · subst hp
          rw [Node.get_nil] at hget
          injection hget with hget
          subst hget
          cases child with
          | file a => exact absurd rfl hfiles
          | dir a sub =>
            exact LockManager.checkLockedFilesAuxLoop_of_mem es c a sub hmem (Or.inl hfiles)
        · have haux := ih child d hp hget hfiles
          cases child with
          | file a => simp [LockManager.checkLockedFilesAux] at haux
          | dir a sub =>
            exact LockManager.checkLockedFilesAuxLoop_of_mem es c a sub hmem (Or.inr haux)

end Fritzing

namespace Fritzing

mutual
/-- When `checkLockedFilesAux` returns true on a directory tree, some directory strictly
below `parent` lists a file. -/
theorem LockManager.checkLockedFilesAux_found : ∀ (parent : Node),
    parent.uniqueNames = true → LockManager.checkLockedFilesAux parent = true →
    ∃ p d, p ≠ [] ∧ parent.get p = some d ∧ d.files ≠ []
  | Node.file _, _, h => by simp [LockManager.checkLockedFilesAux] at h
  | Node.dir m es, hu, h => by
    rw [LockManager.checkLockedFilesAux] at h
    rw [Node.uniqueNames, Bool.and_eq_true, decide_eq_true_eq] at hu
    obtain ⟨name, c, p, d, hv, hget, hfiles⟩ :=
      LockManager.checkLockedFilesAuxLoop_found es hu.1 hu.2 h
    refine ⟨name :: p, d, List.cons_ne_nil _ _, ?_, hfiles⟩
    rw [Node.get_cons]
    simp only [Node.entries, hv, Option.some_bind]
    exact hget
/-- When the loop of `checkLockedFilesAux` returns true, one of the entries is, or has
below it, a directory that lists a file. -/
theorem LockManager.checkLockedFilesAuxLoop_found : ∀ (es : List (String × Node)),
    (QHash.keys es).Nodup → Node.uniqueNamesIn es = true →
    LockManager.checkLockedFilesAuxLoop es = true →
    ∃ name c p d, QHash.value es name = some c ∧ c.get p = some d ∧ d.files ≠ []
  | [], _, _, h => by simp [LockManager.checkLockedFilesAuxLoop] at h
  | (k, Node.file t) :: rest, hn, hu, h => by
    rw [LockManager.checkLockedFilesAuxLoop] at h
    rw [Node.uniqueNamesIn, Bool.and_eq_true] at hu
    simp only [QHash.keys, List.map_cons, List.nodup_cons] at hn
    obtain ⟨name, c, p, d, hv, hget, hfiles⟩ :=
      LockManager.checkLockedFilesAuxLoop_found rest hn.2 hu.2 h
    refine ⟨name, c, p, d, ?_, hget, hfiles⟩
    have hne : k ≠ name := by
      intro hk
      apply hn.1
      rw [hk]
      have := QHash.value_mem _ _ _ hv
      exact List.mem_map_of_mem Prod.fst this
    simp only [QHash.value, if_neg hne]
    exact hv
  | (k, Node.dir m sub) :: rest, hn, hu, h => by
    rw [LockManager.checkLockedFilesAuxLoop] at h
    rw [Node.uniqueNamesIn, Bool.and_eq_true] at hu
    simp only [QHash.keys, List.map_cons, List.nodup_cons] at hn
    by_cases h1 : (Node.dir m sub).files.isEmpty = false
    · refine ⟨k, Node.dir m sub, [], Node.dir m sub, ?_, Node.get_nil _, ?_⟩
      · simp [QHash.value]
      · intro hf
        rw [hf] at h1
        cases h1
    · rw [Bool.not_eq_false] at h1
      by_cases h2 : LockManager.checkLockedFilesAux (Node.dir m sub) = true
      · obtain ⟨p, d, _, hget, hfiles⟩ :=
          LockManager.checkLockedFilesAux_found (Node.dir m sub) hu.1 h2
        exact ⟨k, Node.dir m sub, p, d, by simp [QHash.value], hget, hfiles⟩
      · simp only [h1, Bool.not_true, Bool.false_eq_true, if_false, h2] at h
        obtain ⟨name, c, p, d, hv, hget, hfiles⟩ :=
          LockManager.checkLockedFilesAuxLoop_found rest hn.2 hu.2 h
        refine ⟨name, c, p, d, ?_, hget, hfiles⟩
        have hne : k ≠ name := by
          intro hk
          apply hn.1
          rw [hk]
          have := QHash.value_mem _ _ _ hv
          exact List.mem_map_of_mem Prod.fst this
        simp only [QHash.value, if_neg hne]
        exact hv
end

/-- The result of `checkLockedFilesAux` depends on the subdirectories only. -/
theorem LockManager.checkLockedFilesAuxLoop_dirs (es : List (String × Node)) :
    LockManager.checkLockedFilesAuxLoop (es.filter (fun e => e.2.isDir)) =
      LockManager.checkLockedFilesAuxLoop es := by
  induction es with
  | nil => rfl
  | cons e es ih =>
    obtain ⟨k, c⟩ := e
    cases c with
    | file t =>
      have hd : ((k, Node.file t) : String × Node).2.isDir = false := rfl
      rw [List.filter_cons, hd]
      simp only [Bool.false_eq_true, if_false]
      rw [ih]
      conv_rhs => rw [LockManager.checkLockedFilesAuxLoop]
    | dir m sub =>
      have hd : ((k, Node.dir m sub) : String × Node).2.isDir = true := rfl
      rw [List.filter_cons, hd]
      simp only [if_true]
      conv_lhs => rw [LockManager.checkLockedFilesAuxLoop]
      conv_rhs => rw [LockManager.checkLockedFilesAuxLoop]
      rw [ih]

theorem LockManager.checkLockedFilesAux_dirs (parent : Node) :
    LockManager.checkLockedFilesAux parent = LockManager.checkLockedFilesAuxLoop parent.dirs := by
  cases parent with
  | file t => simp [LockManager.checkLockedFilesAux, Node.dirs, Node.entries,
      LockManager.checkLockedFilesAuxLoop]
  | dir m es =>
    rw [LockManager.checkLockedFilesAux]
    simp only [Node.dirs, Node.entries]
    rw [LockManager.checkLockedFilesAuxLoop_dirs]

/-- C12. `checkLockedFilesAux` is a total function on directory trees (it is defined by
recursion on the tree, so it returns on every one), and on a tree, where the names in each
directory are distinct, it returns true exactly when some directory strictly below `parent`
(at a path of one or more names) lists at least one file. Files directly in `parent` do not
count: two directories with the same subdirectories give the same result; and a `parent`
with no subdirectories gives false. -/
theorem LockManager.checkLockedFilesAux_exact (parent : Node)
    (hunique : parent.uniqueNames = true) :
    (LockManager.checkLockedFilesAux parent = true ↔
      ∃ p d, p ≠ [] ∧ parent.get p = some d ∧ d.files ≠ []) ∧
    (LockManager.checkLockedFilesAux parent = false ↔
      ∀ p d, p ≠ [] → parent.get p = some d → d.files = []) ∧
    (∀ other : Node, other.dirs = parent.dirs →
      LockManager.checkLockedFilesAux other = LockManager.checkLockedFilesAux parent) ∧
    (parent.dirs = [] → LockManager.checkLockedFilesAux parent = false) := by
  have hiff : LockManager.checkLockedFilesAux parent = true ↔
      ∃ p d, p ≠ [] ∧ parent.get p = some d ∧ d.files ≠ [] := by
    constructor
    · exact LockManager.checkLockedFilesAux_found parent hunique
    · rintro ⟨p, d, hp, hget, hfiles⟩
      exact LockManager.checkLockedFilesAux_of_get p parent d hp hget hfiles
  refine ⟨hiff, ?_, ?_, ?_⟩
  · constructor
    · intro hfalse p d hp hget
      by_contra hfiles
      have := hiff.mpr ⟨p, d, hp, hget, hfiles⟩
      rw [hfalse] at this
      cases this
    · intro hall
      cases haux : LockManager.checkLockedFilesAux parent with
      | false => rfl
      | true =>
        obtain ⟨p, d, hp, hget, hfiles⟩ := hiff.mp haux
        exact absurd (hall p d hp hget) hfiles
  · intro other hdirs
    rw [LockManager.checkLockedFilesAux_dirs other, LockManager.checkLockedFilesAux_dirs parent,
      hdirs]
  · intro hdirs
    rw [LockManager.checkLockedFilesAux_dirs parent, hdirs]
    rfl

/-- C12, on the example tree: the file `sketches/v1/a.fzz` is found two levels down. -/
theorem LockManager.checkLockedFilesAux_exact_witness :
    exampleTree.uniqueNames = true ∧
    LockManager.checkLockedFilesAux exampleTree = true ∧
    ∃ p d, p ≠ [] ∧ exampleTree.get p = some d ∧ d.files ≠ [] :=
  ⟨by decide, by decide,
   (LockManager.checkLockedFilesAux_exact exampleTree (by decide)).1.mp (by decide)⟩

end Fritzing

namespace Fritzing

/-! ## Subfolders whose files are nested -/

/-- The whole call for a subfolder in which no file is found (by the listing, and with
`recurse` set by `checkLockedFilesAux`): removed when old, untouched otherwise, and never
claimed. -/
theorem LockManager.checkLockedFiles_empty_handled (store : Path) (w : World) (pfx : Path)
    (backupList : List QFileInfo) (lockedFiles : List (String × Nat)) (recurse : Bool)
    (tf : Int) (n : String) (m : Int) (es : List (String × Node))
    (hsub : w.root.get (store ++ pfx ++ [n]) = some (Node.dir m es))
    (hfiles : (Node.dir m es).files = [])
    (hrec : recurse = true → LockManager.checkLockedFilesAux (Node.dir m es) = false)
    (hnodup : ((QDir.entryInfoList w.root (store ++ pfx) true).map QFileInfo.fileName).Nodup)
    (hlong : inLong (-2000 - tf)) :
    (m < w.now - (2000 + tf) →
      (LockManager.checkLockedFiles store w pfx backupList lockedFiles recurse tf).w.root.get
        (store ++ pfx ++ [n]) = none) ∧
    (¬ m < w.now - (2000 + tf) →
      LockManager.Untouched (store ++ pfx) n (LockManager.CheckState.mk w backupList lockedFiles)
        (LockManager.checkLockedFiles store w pfx backupList lockedFiles recurse tf)) ∧
    LockManager.NotClaimed (store ++ pfx) n (LockManager.CheckState.mk w backupList lockedFiles)
      (LockManager.checkLockedFiles store w pfx backupList lockedFiles recurse tf) := by
  obtain ⟨l1, l2, hl, h1, h2⟩ := QDir.entryInfoList_split w.root (store ++ pfx) n m es hsub hnodup
  have hcheck : LockManager.checkLockedFiles store w pfx backupList lockedFiles recurse tf =
      l2.foldl (LockManager.checkLockedFilesStep recurse tf)
        (LockManager.checkLockedFilesStep recurse tf
          (l1.foldl (LockManager.checkLockedFilesStep recurse tf)
            (LockManager.CheckState.mk w backupList lockedFiles))
          (QFileInfo.mk (store ++ pfx) n m)) := by
    unfold LockManager.checkLockedFiles
    simp [QDir.cd_of_child w.root store pfx n _ hsub, hl]
  have u01 := LockManager.checkLockedFiles_foldl_other (store ++ pfx) n recurse tf l1
    (LockManager.CheckState.mk w backupList lockedFiles) h1
  obtain ⟨s1, hs1⟩ : ∃ s1, l1.foldl (LockManager.checkLockedFilesStep recurse tf)
    (LockManager.CheckState.mk w backupList lockedFiles) = s1 := ⟨_, rfl⟩
  rw [hs1] at hcheck u01
  have hsub1 : s1.w.root.get (store ++ pfx ++ [n]) = some (Node.dir m es) := by
    rw [u01.root]; exact hsub
  have hstep := LockManager.checkLockedFilesStep_empty (store ++ pfx) n recurse tf s1
    (QFileInfo.mk (store ++ pfx) n m) (Node.dir m es) rfl rfl hsub1 hfiles hrec
  rw [u01.now, LockManager.staleBefore_eq _ _ hlong] at hstep
  simp only at hstep
  by_cases hold : m < w.now - (2000 + tf)
  · rw [if_pos hold] at hstep
    rw [hstep] at hcheck
    have u23 := LockManager.checkLockedFiles_foldl_other (store ++ pfx) n recurse tf l2
      { s1 with w := FolderUtils.rmdir s1.w (store ++ pfx ++ [n]) } h2
    rw [← hcheck] at u23
    have hnc := LockManager.notClaimed_trans _ _ _ _ _
      (LockManager.notClaimed_trans _ _ _ _ _ (LockManager.untouched_notClaimed _ _ _ _ u01)
        (LockManager.rmdir_notClaimed (store ++ pfx) n s1 (store ++ pfx ++ [n])))
      (LockManager.untouched_notClaimed _ _ _ _ u23)
    refine ⟨fun _ => ?_, fun h => absurd hold h, hnc⟩
    rw [u23.root]
    exact FolderUtils.rmdir_get_self s1.w (store ++ pfx) n m es hsub1
  · rw [if_neg hold] at hstep
    rw [hstep] at hcheck
    have u23 := LockManager.checkLockedFiles_foldl_other (store ++ pfx) n recurse tf l2 s1 h2
    rw [← hcheck] at u23
    have hu := LockManager.untouched_trans _ _ _ _ _ u01 u23
    exact ⟨fun h => absurd h hold, fun _ => hu, LockManager.untouched_notClaimed _ _ _ _ hu⟩

theorem Node.touchEntry_dir (name : String) (now m : Int) (es : List (String × Node)) :
    ∃ m2 es2, Node.touchEntry name now (Node.dir m es) = Node.dir m2 es2 := by
  simp only [Node.touchEntry]
  split
  · exact ⟨_, _, rfl⟩
  · exact ⟨_, _, rfl⟩
  · exact ⟨_, _, rfl⟩

end Fritzing

namespace Fritzing

/-- A round of the loop for a subfolder in which a file is found and whose lock path
exists with a fresh time: nothing happens. -/
theorem LockManager.checkLockedFilesStep_skip (P : Path) (n : String) (recurse : Bool)
    (tf : Int) (s : LockManager.CheckState) (i : QFileInfo) (sub lock : Node)
    (hdir : i.dir = P) (hname : i.fileName = n)
    (hsub : s.w.root.get (P ++ [n]) = some sub)
    (hfound : sub.files ≠ [] ∨ (recurse = true ∧ LockManager.checkLockedFilesAux sub = true))
    (hlock : QHash.value sub.entries LockManager.LockedFileName = some lock)
    (hfresh : lock.lastModified ≥ LockManager.staleBefore s.w.now tf) :
    LockManager.checkLockedFilesStep recurse tf s i = s := by
  have he : (QDir.entryInfoList s.w.root (P ++ [n]) false).isEmpty = sub.files.isEmpty :=
    QDir.entryInfoList_files_isEmpty _ _ _ hsub
  have hl : s.w.root.get (P ++ [n] ++ [LockManager.LockedFileName]) = some lock := by
    rw [Node.get_lock _ _ _ _ hsub, hlock]
  unfold LockManager.checkLockedFilesStep
  simp only [QFileInfo.filePath, hdir, hname, QDir.absoluteFilePath, he, hl, hsub]
  rcases hfound with hf | ⟨hr, ha⟩
  · have hf2 : sub.files.isEmpty = false := by
      cases hfs : sub.files with
      | nil => exact absurd hfs hf
      | cons a b => rfl
    simp [hf2, hfresh]
  · subst hr
    cases hfs : sub.files.isEmpty <;> simp [ha, hfresh]

/-- C11, as it holds. Take a backup subfolder that lists no files directly and has a file
in a nested directory. With `recurse = true`, `checkLockedFiles` does not delete it, whatever
its age, and appends nothing of it to `backupList`; and when nothing in it carries the name
`___lockfile___.txt`, the subfolder is claimed: `lockedFiles` gets under its name a new
`LockedFile` for its lock file with the frequency `touchFrequency`, which is registered, and
the lock file is created, written at the current time. With `recurse = false` the subfolder
is handled as an empty one: removed when its time is before `now - (2000 + touchFrequency)`,
untouched otherwise, never claimed. (The names in the listing of the backup directory are
distinct, and `-2000 - touchFrequency` is assumed not to overflow a `long`.) -/
theorem LockManager.checkLockedFiles_nested (store : Path) (w : World) (pfx : Path)
    (backupList : List QFileInfo) (lockedFiles : List (String × Nat))
    (tf : Int) (n : String) (m : Int) (es : List (String × Node))
    (hsub : w.root.get (store ++ pfx ++ [n]) = some (Node.dir m es))
    (hfiles : (Node.dir m es).files = [])
    (hnested : ∃ p d, p ≠ [] ∧ (Node.dir m es).get p = some d ∧ d.files ≠ [])
    (hnodup : ((QDir.entryInfoList w.root (store ++ pfx) true).map QFileInfo.fileName).Nodup)
    (hlong : inLong (-2000 - tf)) :
    (QDir.exists
        (LockManager.checkLockedFiles store w pfx backupList lockedFiles true tf).w.root
        (store ++ pfx ++ [n]) = true ∧
      (∃ added,
        (LockManager.checkLockedFiles store w pfx backupList lockedFiles true tf).backupList =
          backupList ++ added ∧
        ∀ i ∈ added, i.dir ≠ store ++ pfx ++ [n]) ∧
      (QHash.value es LockManager.LockedFileName = none →
        ∃ p, w.heap.length ≤ p ∧
          QHash.value (LockManager.checkLockedFiles store w pfx backupList lockedFiles true
            tf).lockedFiles n = some p ∧
          (LockManager.checkLockedFiles store w pfx backupList lockedFiles true tf).w.heap[p]? =
            some (some (LockedFile.mk
              (store ++ pfx ++ [n] ++ [LockManager.LockedFileName]) tf)) ∧
          (tf, p) ∈ (LockManager.checkLockedFiles store w pfx backupList lockedFiles true
            tf).w.TheLockedFiles ∧
          Call.touch p (store ++ pfx ++ [n] ++ [LockManager.LockedFileName]) true ∈
            (LockManager.checkLockedFiles store w pfx backupList lockedFiles true tf).w.calls ∧
          (LockManager.checkLockedFiles store w pfx backupList lockedFiles true tf).w.root.get
            (store ++ pfx ++ [n] ++ [LockManager.LockedFileName]) = some (Node.file w.now))) ∧
    ((m < w.now - (2000 + tf) →
        (LockManager.checkLockedFiles store w pfx backupList lockedFiles false tf).w.root.get
          (store ++ pfx ++ [n]) = none) ∧
      (¬ m < w.now - (2000 + tf) →
        LockManager.Untouched (store ++ pfx) n
          (LockManager.CheckState.mk w backupList lockedFiles)
          (LockManager.checkLockedFiles store w pfx backupList lockedFiles false tf)) ∧
      LockManager.NotClaimed (store ++ pfx) n
        (LockManager.CheckState.mk w backupList lockedFiles)
        (LockManager.checkLockedFiles store w pfx backupList lockedFiles false tf)) := by
  refine ⟨?_, LockManager.checkLockedFiles_empty_handled store w pfx backupList lockedFiles
    false tf n m es hsub hfiles (fun h => by cases h) hnodup hlong⟩
  obtain ⟨q, d, hq, hget, hdfiles⟩ := hnested
  have haux : LockManager.checkLockedFilesAux (Node.dir m es) = true :=
    LockManager.checkLockedFilesAux_of_get q _ d hq hget hdfiles
  obtain ⟨l1, l2, hl, h1, h2⟩ := QDir.entryInfoList_split w.root (store ++ pfx) n m es hsub hnodup
  have hcheck : LockManager.checkLockedFiles store w pfx backupList lockedFiles true tf =
      l2.foldl (LockManager.checkLockedFilesStep true tf)
        (LockManager.checkLockedFilesStep true tf
          (l1.foldl (LockManager.checkLockedFilesStep true tf)
            (LockManager.CheckState.mk w backupList lockedFiles))
          (QFileInfo.mk (store ++ pfx) n m)) := by
    unfold LockManager.checkLockedFiles
    simp [QDir.cd_of_child w.root store pfx n _ hsub, hl]
  have u01 := LockManager.checkLockedFiles_foldl_other (store ++ pfx) n true tf l1
    (LockManager.CheckState.mk w backupList lockedFiles) h1
  obtain ⟨s1, hs1⟩ : ∃ s1, l1.foldl (LockManager.checkLockedFilesStep true tf)
    (LockManager.CheckState.mk w backupList lockedFiles) = s1 := ⟨_, rfl⟩
  rw [hs1] at hcheck u01
  have hsub1 : s1.w.root.get (store ++ pfx ++ [n]) = some (Node.dir m es) := by
    rw [u01.root]; exact hsub
  have hnow1 : s1.w.now = w.now := u01.now
  have hnone : QDir.entryInfoList s1.w.root (store ++ pfx ++ [n]) false = [] := by
    rw [QDir.entryInfoList_files _ _ _ hsub1, hfiles]
    rfl
  by_cases hfresh : ∃ lock, QHash.value es LockManager.LockedFileName = some lock ∧
      lock.lastModified ≥ w.now - (2000 + tf)
  · obtain ⟨lock, hlock, hge⟩ := hfresh
    have hstep := LockManager.checkLockedFilesStep_skip (store ++ pfx) n true tf s1
      (QFileInfo.mk (store ++ pfx) n m) (Node.dir m es) lock rfl rfl hsub1
      (Or.inr ⟨rfl, haux⟩) hlock
      (by rw [hnow1, LockManager.staleBefore_eq _ _ hlong]; exact hge)
    rw [hstep] at hcheck
    have u23 := LockManager.checkLockedFiles_foldl_other (store ++ pfx) n true tf l2 s1 h2
    rw [← hcheck] at u23
    have hu := LockManager.untouched_trans _ _ _ _ _ u01 u23
    refine ⟨?_, hu.backupList, ?_⟩
    · exact (QDir.exists_iff _ _).mpr ⟨m, es, by rw [hu.root]; exact hsub⟩
    · intro hnolock
      rw [hnolock] at hlock
      cases hlock
  · have hstep := LockManager.checkLockedFilesStep_claim (store ++ pfx) n true tf s1
      (QFileInfo.mk (store ++ pfx) n m) (Node.dir m es) rfl rfl hsub1 (Or.inr ⟨rfl, haux⟩)
      (by
        intro lock hv
        rw [hnow1, LockManager.staleBefore_eq _ _ hlong]
        simp only [Node.entries] at hv
        by_contra hc
        exact hfresh ⟨lock, hv, not_lt.mp hc⟩)
    rw [hstep, hnone, List.append_nil] at hcheck
    have u23 := LockManager.checkLockedFiles_foldl_other (store ++ pfx) n true tf l2
      (LockManager.CheckState.mk
        (LockManager.makeLockedFile s1.w
          (store ++ pfx ++ [n] ++ [LockManager.LockedFileName]) tf).1
        s1.backupList
        (QHash.insert s1.lockedFiles n s1.w.heap.length)) h2
    rw [← hcheck] at u23
    obtain ⟨a1, ha1, ha1p⟩ := u01.backupList
    obtain ⟨o1, ho1, _⟩ := u01.heap
    obtain ⟨a3, ha3, ha3p⟩ := u23.backupList
    obtain ⟨o3, ho3, _⟩ := u23.heap
    obtain ⟨r3, hr3, _⟩ := u23.registry
    obtain ⟨c3, hc3, _⟩ := u23.calls
    simp only [LockManager.makeLockedFile_heap, LockManager.makeLockedFile_registry,
      LockManager.makeLockedFile_calls] at ho3 hr3 hc3
    have hroot2 := u23.root
    simp only [LockManager.makeLockedFile_root, QFile.rewrite_eq, Node.get_modifyAt_self,
      hsub1, Option.map_some'] at hroot2
    refine ⟨?_, ⟨a1 ++ a3, ?_, ?_⟩, ?_⟩
    · obtain ⟨m2, es2, hte⟩ := Node.touchEntry_dir LockManager.LockedFileName s1.w.now m es
      exact (QDir.exists_iff _ _).mpr ⟨m2, es2, by rw [hroot2, hte]⟩
    · rw [ha3]
      simp only
      rw [ha1, List.append_assoc]
    · intro i hi
      rcases List.mem_append.mp hi with h | h
      · exact ha1p i h
      · exact ha3p i h
    · intro hnolock
      have hnotdir : ∀ a b, QHash.value es LockManager.LockedFileName ≠ some (Node.dir a b) := by
        intro a b hv
        rw [hnolock] at hv
        cases hv
      have hopen : QFile.canOpen s1.w.root
          (store ++ pfx ++ [n] ++ [LockManager.LockedFileName]) = true := by
        rw [QFile.canOpen_eq, hsub1]
        simp [hnolock]
      refine ⟨s1.w.heap.length, ?_, ?_, ?_, ?_, ?_, ?_⟩
      · rw [ho1]; simp
      · rw [u23.lockedFiles]; exact QHash.value_insert_self _ _ _
      · rw [ho3, List.append_assoc, List.getElem?_append_right (le_refl _)]
        simp
      · rw [hr3]; simp
      · rw [hc3, hopen]; simp
      · rw [Node.get_lock _ _ _ _ hroot2, hnow1]
        exact Node.touchEntry_value _ _ _ _ hnotdir

end Fritzing

namespace Fritzing

/-- C11, for the subfolder `deep` of the example state, whose only file lies in the
nested directory `inner`. -/
theorem LockManager.checkLockedFiles_nested_witness :
    ∃ p, 0 ≤ p ∧
      QHash.value (LockManager.checkLockedFiles ["store"] exampleNestedWorld ["backup"] [] []
        true LockManager.FastTime).lockedFiles "deep" = some p :=
  have h := (LockManager.checkLockedFiles_nested ["store"] exampleNestedWorld ["backup"] [] []
    LockManager.FastTime "deep" 70 [("inner", Node.dir 71 [("d.fzz", Node.file 72)])]
    rfl rfl
    ⟨["inner"], Node.dir 71 [("d.fzz", Node.file 72)], List.cons_ne_nil _ _, rfl,
      List.ne_nil_of_length_pos (by decide)⟩
    (by decide) (by decide)).1.2.2 rfl
  h.elim (fun p hp => ⟨p, hp.1, hp.2.1⟩)

set_option maxRecDepth 100000 in
/-- C11 as stated fails: the subfolder `odd` of the example state lists no files directly
and has the file `___lockfile___.txt/e.fzz` in a nested directory, yet with `recurse = true`
it is not claimed, because that directory carries the name of the lock file and was modified
1000 ms ago: `lockedFiles` has no entry for `odd`, the only `LockedFile` made is the one for
`deep`, and no lock file is created in `odd`. -/
theorem LockManager.checkLockedFiles_nested_not_claimed :
    exampleNestedWorld.root.get ["store", "backup", "odd"] =
      some (Node.dir 73 [("___lockfile___.txt", Node.dir 9000 [("e.fzz", Node.file 74)])]) ∧
    (Node.dir 73 [("___lockfile___.txt", Node.dir 9000 [("e.fzz", Node.file 74)])]).files.length
      = 0 ∧
    (Node.dir 73 [("___lockfile___.txt", Node.dir 9000 [("e.fzz", Node.file 74)])]).get
      ["___lockfile___.txt", "e.fzz"] = some (Node.file 74) ∧
    QHash.value (LockManager.checkLockedFiles ["store"] exampleNestedWorld ["backup"] [] []
      true LockManager.FastTime).lockedFiles "odd" = none ∧
    (LockManager.checkLockedFiles ["store"] exampleNestedWorld ["backup"] [] []
      true LockManager.FastTime).w.heap =
        [some (LockedFile.mk ["store", "backup", "deep", "___lockfile___.txt"] 2000)] ∧
    (LockManager.checkLockedFiles ["store"] exampleNestedWorld ["backup"] [] []
      true LockManager.FastTime).w.root.get ["store", "backup", "odd", "___lockfile___.txt"] =
        some (Node.dir 9000 [("e.fzz", Node.file 74)]) :=
  ⟨rfl, rfl, rfl, rfl, rfl, rfl⟩

end Fritzing
